import Mathlib

/-!
# Verification of the ferrumc NBT decoder (`src/lib/adapters/nbt/src/de/mod.rs`)

A shallow embedding of `NbtParser` over byte buffers modelled as `List Nat`
(each element a byte value `< 256`).  Machine integers are modelled as `Nat`
and `Int` with explicit reductions modulo `2^64` where Rust `usize`
arithmetic can wrap (release-profile semantics on a 64-bit target).

Rust panics and aborts — the `unreachable!` arm of `parse_payload`, a slice
index whose end precedes its start after a wrapping add, and a
`Vec::with_capacity` request above `isize::MAX` — are modelled by the
distinguished result `PResult.panicked`, kept separate from the typed
`NBTError` values so that "returns a typed error" and "aborts the process"
are distinguishable propositions.

The Rust functions recurse unboundedly; the embedding threads an explicit
`fuel` argument and returns `PResult.outOfFuel` on exhaustion.  Fuel is an
artifact of the embedding: it is proved below that any fuel of at least
`2 * (buffer length) + 2` produces a fuel-independent result, which is the
formal counterpart of termination of the Rust recursion with depth bounded
linearly by the buffer length.
-/

/-- `2^64`, the modulus of `usize` arithmetic on the modelled 64-bit target. -/
def usizeMod : Nat := 2 ^ 64

/-- `isize::MAX` on the modelled 64-bit target.  `Vec::with_capacity` for a
non-zero-sized element type aborts when the requested capacity exceeds it. -/
def isizeMax : Nat := 2 ^ 63 - 1

/-- Wrapping `usize` addition, as performed by `self.pos + len` in the
release profile when `len` originated from a negative `i32`. -/
def usizeAdd (a b : Nat) : Nat := (a + b) % usizeMod

/-- Wrapping `usize` multiplication (`len * 4`, `len * 8` in the array readers). -/
def usizeMul (a b : Nat) : Nat := (a * b) % usizeMod

/-- Two's-complement reinterpretation of an unsigned `w`-bit value as signed
(`u32 as i32`, etc.). -/
def toSigned (w : Nat) (n : Nat) : Int :=
  if n < 2 ^ (w - 1) then (n : Int) else (n : Int) - 2 ^ w

/-- `as usize` on an `i32` value: sign-extension to 64 bits, i.e. the value
modulo `2^64`. -/
def i32AsUsize (v : Int) : Nat := (v % (usizeMod : Int)).toNat

/-- Big-endian value of a byte sequence (`from_be_bytes`). -/
def beWord (bs : List Nat) : Nat := bs.foldl (fun a b => a * 256 + b) 0

/-- Host byte order.  The array readers reinterpret raw memory via
`slice::from_raw_parts`, so their element values depend on it. -/
inductive Endian where
  | big
  | little
deriving DecidableEq

/-- Value of a byte group read from memory as a native-endian machine word. -/
def hostWord : Endian → List Nat → Nat
  | .big, bs => beWord bs
  | .little, bs => beWord bs.reverse

/-- The typed error values of `NBTError` reachable from the decoder
(`CompressedData`, `InvalidRootCompound`, `UnexpectedEndOfData`,
`InvalidNBTData`). -/
inductive NBTError where
  | compressedData
  | invalidRootCompound (t : Nat)
  | unexpectedEndOfData
  | invalidNBTData
deriving DecidableEq

/-- Result of a decoding step: a value, a typed error, a process abort
(`unreachable!`, slice-range panic, overflow trap, capacity-overflow abort),
or exhaustion of the embedding's fuel. -/
inductive PResult (α : Type) where
  | ok (a : α)
  | err (e : NBTError)
  | panicked
  | outOfFuel

def PResult.bind {α β : Type} : PResult α → (α → PResult β) → PResult β
  | .ok a, f => f a
  | .err e, _ => .err e
  | .panicked, _ => .panicked
  | .outOfFuel, _ => .outOfFuel

instance : Monad PResult where
  pure := PResult.ok
  bind := PResult.bind

/-- A decoded NBT tag.  Zero-copy views of the Rust code are modelled as the
byte (resp. element) sequences they denote; `Float`/`Double` carry the raw
bit pattern produced by `read_u32`/`read_u64` (`f32::from_bits` preserves it
exactly). -/
inductive NbtTag where
  | endTag
  | byte (v : Int)
  | short (v : Int)
  | int (v : Int)
  | long (v : Int)
  | float (bits : Nat)
  | double (bits : Nat)
  | byteArray (bs : List Nat)
  | string (bs : List Nat)
  | list (elementType : Nat) (elements : List NbtTag)
  | compound (entries : List (List Nat × NbtTag))
  | intArray (xs : List Int)
  | longArray (xs : List Int)

/-- `HashMap::insert` semantics on the association-list model of
`NbtCompound.tags`: replace the value of an existing key, else append. -/
def insertEntry (entries : List (List Nat × NbtTag)) (name : List Nat)
    (t : NbtTag) : List (List Nat × NbtTag) :=
  match entries with
  | [] => [(name, t)]
  | (n, v) :: rest =>
      if n = name then (n, t) :: rest else (n, v) :: insertEntry rest name t

/-- `NbtCompound::get` on the association-list model. -/
def lookupEntry (entries : List (List Nat × NbtTag)) (name : List Nat) :
    Option NbtTag :=
  match entries with
  | [] => none
  | (n, v) :: rest => if n = name then some v else lookupEntry rest name

/-- `NbtParser::read_u8`: bounds check then one byte, advancing the cursor. -/
def readU8 (data : List Nat) (pos : Nat) : PResult (Nat × Nat) :=
  if pos ≥ data.length then .err .unexpectedEndOfData
  else .ok (data.getD pos 0, pos + 1)

/-- `NbtParser::read_u16`: checks `pos + 2 <= len`, reads big-endian. -/
def readU16 (data : List Nat) (pos : Nat) : PResult (Nat × Nat) :=
  if pos + 2 > data.length then .err .unexpectedEndOfData
  else .ok (beWord ((data.drop pos).take 2), pos + 2)

/-- `NbtParser::read_u32`: checks `pos + 4 <= len`, reads big-endian. -/
def readU32 (data : List Nat) (pos : Nat) : PResult (Nat × Nat) :=
  if pos + 4 > data.length then .err .unexpectedEndOfData
  else .ok (beWord ((data.drop pos).take 4), pos + 4)

/-- `NbtParser::read_u64`: checks `pos + 8 <= len`, reads big-endian. -/
def readU64 (data : List Nat) (pos : Nat) : PResult (Nat × Nat) :=
  if pos + 8 > data.length then .err .unexpectedEndOfData
  else .ok (beWord ((data.drop pos).take 8), pos + 8)

/-- `NbtParser::read_i8` (`read_u8 as i8`). -/
def readI8 (data : List Nat) (pos : Nat) : PResult (Int × Nat) :=
  (readU8 data pos).bind fun (v, p) => .ok (toSigned 8 v, p)

/-- `NbtParser::read_i16` (`read_u16 as i16`). -/
def readI16 (data : List Nat) (pos : Nat) : PResult (Int × Nat) :=
  (readU16 data pos).bind fun (v, p) => .ok (toSigned 16 v, p)

/-- `NbtParser::read_i32` (`read_u32 as i32`). -/
def readI32 (data : List Nat) (pos : Nat) : PResult (Int × Nat) :=
  (readU32 data pos).bind fun (v, p) => .ok (toSigned 32 v, p)

/-- `NbtParser::read_i64` (`read_u64 as i64`). -/
def readI64 (data : List Nat) (pos : Nat) : PResult (Int × Nat) :=
  (readU64 data pos).bind fun (v, p) => .ok (toSigned 64 v, p)

/-- `NbtParser::parse_string`: 16-bit length prefix, then a raw byte view.
The source calls `str::from_utf8_unchecked`, so NO text validation occurs:
the raw bytes are exposed as the string value whatever they contain. -/
def parseString (data : List Nat) (pos : Nat) : PResult (List Nat × Nat) :=
  (readU16 data pos).bind fun (len, p) =>
    if p + len > data.length then .err .unexpectedEndOfData
    else .ok (((data.drop p).take len), p + len)

/-- The ByteArray branch of `parse_payload` after `read_i32`: the declared
length is reinterpreted `as usize`; the bounds check `pos + len > data.len()`
uses wrapping addition in the release profile, and the subsequent slice
`data[pos .. pos + len]` panics when the wrapped end precedes `pos`. -/
def takeByteView (data : List Nat) (pos : Nat) (len : Nat) :
    PResult (List Nat × Nat) :=
  let stop := usizeAdd pos len
  if stop > data.length then .err .unexpectedEndOfData
  else if stop < pos then .panicked
  else .ok (((data.drop pos).take len), stop)

/-- `NbtParser::read_i32_array`: `byte_len = len * 4` (wrapping), bounds
check with wrapping addition, slice panic when inverted, then
`slice::from_raw_parts(ptr as *const i32, len)` — a raw reinterpretation of
memory giving each element the HOST byte order, not big-endian.  The
runtime alignment test is address-dependent, not input-dependent; the
aligned case (`align_offset == 0`) is modelled. -/
def readI32Array (host : Endian) (data : List Nat) (pos : Nat) (len : Nat) :
    PResult (List Int × Nat) :=
  let byteLen := usizeMul len 4
  let stop := usizeAdd pos byteLen
  if stop > data.length then .err .unexpectedEndOfData
  else if stop < pos then .panicked
  else .ok ((List.range len).map
      (fun i => toSigned 32 (hostWord host ((data.drop (pos + 4 * i)).take 4))),
    stop)

/-- `NbtParser::read_i64_array`: as `read_i32_array` with 8-byte elements. -/
def readI64Array (host : Endian) (data : List Nat) (pos : Nat) (len : Nat) :
    PResult (List Int × Nat) :=
  let byteLen := usizeMul len 8
  let stop := usizeAdd pos byteLen
  if stop > data.length then .err .unexpectedEndOfData
  else if stop < pos then .panicked
  else .ok ((List.range len).map
      (fun i => toSigned 64 (hostWord host ((data.drop (pos + 8 * i)).take 8))),
    stop)

/-- The element loop of the List branch: parse `count` payloads of the
declared element type in sequence, via the supplied one-payload step. -/
def runListLoop (step : Nat → PResult (NbtTag × Nat)) :
    Nat → Nat → PResult (List NbtTag × Nat)
  | 0, pos => .ok ([], pos)
  | count + 1, pos =>
      (step pos).bind fun (t, p) =>
        (runListLoop step count p).bind fun (ts, q) => .ok (t :: ts, q)

/-- The entry loop of the Compound branch: read a tag-type byte, stop on 0,
otherwise read a name, parse that type's payload via the supplied step, and
`insert` (last write wins).  Its own fuel bounds the number of iterations;
each genuine iteration consumes at least the tag byte. -/
def runCompoundLoop (data : List Nat) (step : Nat → Nat → PResult (NbtTag × Nat)) :
    Nat → Nat → List (List Nat × NbtTag) →
    PResult (List (List Nat × NbtTag) × Nat)
  | 0, _, _ => .outOfFuel
  | fuel + 1, pos, acc =>
      (readU8 data pos).bind fun (tagType, p1) =>
        if tagType = 0 then .ok (acc, p1)
        else
          (parseString data p1).bind fun (name, p2) =>
            (step tagType p2).bind fun (t, p3) =>
              runCompoundLoop data step fuel p3 (insertEntry acc name t)

/-- The body of `NbtParser::parse_payload`: the dispatcher on the one-byte
tag-type discriminant, with the recursive call abstracted as `recur` (and
the compound-loop budget as `loopFuel`).  Faithful to the source arm by
arm, including the `unreachable!` on discriminants outside 0–12 (modelled
as `panicked`) and the `Vec::with_capacity(len)` abort in the List branch
when the `as usize`-reinterpreted count exceeds `isize::MAX`. -/
def payloadStep (host : Endian) (data : List Nat)
    (recur : Nat → Nat → PResult (NbtTag × Nat)) (loopFuel : Nat)
    (tagType pos : Nat) : PResult (NbtTag × Nat) :=
  match tagType with
  | 0 => .ok (.endTag, pos)
  | 1 => (readI8 data pos).bind fun (v, p) => .ok (.byte v, p)
  | 2 => (readI16 data pos).bind fun (v, p) => .ok (.short v, p)
  | 3 => (readI32 data pos).bind fun (v, p) => .ok (.int v, p)
  | 4 => (readI64 data pos).bind fun (v, p) => .ok (.long v, p)
  | 5 => (readU32 data pos).bind fun (v, p) => .ok (.float v, p)
  | 6 => (readU64 data pos).bind fun (v, p) => .ok (.double v, p)
  | 7 =>
      (readI32 data pos).bind fun (v, p) =>
        (takeByteView data p (i32AsUsize v)).bind fun (bs, q) =>
          .ok (.byteArray bs, q)
  | 8 =>
      (parseString data pos).bind fun (s, p) => .ok (.string s, p)
  | 9 =>
      (readU8 data pos).bind fun (itemType, p1) =>
        (readI32 data p1).bind fun (v, p2) =>
          let len := i32AsUsize v
          if len > isizeMax then .panicked
          else
            (runListLoop (fun q => recur itemType q) len p2).bind
              fun (ts, q) => .ok (.list itemType ts, q)
  | 10 =>
      (runCompoundLoop data recur loopFuel pos []).bind
        fun (entries, q) => .ok (.compound entries, q)
  | 11 =>
      (readI32 data pos).bind fun (v, p) =>
        (readI32Array host data p (i32AsUsize v)).bind fun (xs, q) =>
          .ok (.intArray xs, q)
  | 12 =>
      (readI32 data pos).bind fun (v, p) =>
        (readI64Array host data p (i32AsUsize v)).bind fun (xs, q) =>
          .ok (.longArray xs, q)
  | _ => .panicked

/-- `NbtParser::parse_payload`: ties the recursive knot of `payloadStep`
through the embedding fuel. -/
def parsePayload (host : Endian) (data : List Nat) :
    Nat → Nat → Nat → PResult (NbtTag × Nat)
  | 0, _, _ => .outOfFuel
  | fuel + 1, tagType, pos =>
      payloadStep host data
        (fun t q => parsePayload host data fuel t q) fuel tagType pos

/-- `NbtParser::is_compressed`: gzip magic prefix `0x1F 0x8B`. -/
def isCompressed (data : List Nat) : Bool :=
  match data with
  | b0 :: b1 :: _ => b0 = 31 && b1 = 139
  | _ => false

/-- Fuel that the sufficiency theorem below proves adequate for any parse
over `data`. -/
def enoughFuel (data : List Nat) : Nat := 2 * data.length + 2

/-- `NbtParser::parse`, additionally exposing the final cursor position
(the Rust method keeps it in `self.pos`). -/
def parseRoot (host : Endian) (data : List Nat) :
    PResult ((List Nat × NbtTag) × Nat) :=
  if isCompressed data then .err .compressedData
  else
    (readU8 data 0).bind fun (tagType, p1) =>
      if tagType ≠ 10 then .err (.invalidRootCompound tagType)
      else
        (parseString data p1).bind fun (name, p2) =>
          (parsePayload host data (enoughFuel data) tagType p2).bind
            fun (t, p3) => .ok ((name, t), p3)

/-- `NbtParser::parse`: the root entry point, returning the root name and
the decoded tree. -/
def parse (host : Endian) (data : List Nat) : PResult (List Nat × NbtTag) :=
  (parseRoot host data).bind fun (nt, _) => .ok nt

example :
    parse .big [10, 0, 0, 3, 0, 1, 120, 0, 0, 0, 42, 0] =
      .ok ([], .compound [([120], .int 42)]) := rfl

/-! ## Concrete decoding scenarios -/

/-- The spec's concrete scenario: a Compound with empty root name holding
one Int entry named "x" with value 42. -/
def scenarioInt42 : List Nat := [10, 0, 0, 3, 0, 1, 120, 0, 0, 0, 42, 0]

/-- A Compound whose single entry "x" declares a ByteArray with length
`-1` (`0xFFFFFFFF`). -/
def scenarioByteArrayNeg : List Nat := [10, 0, 0, 7, 0, 1, 120, 255, 255, 255, 255]

/-- A Compound whose single entry "l" declares a List of element type 1
with count `-1` (`0xFFFFFFFF`). -/
def scenarioListNeg : List Nat := [10, 0, 0, 9, 0, 1, 108, 1, 255, 255, 255, 255]

/-- A Compound whose first entry uses the tag-type discriminant 13, outside
the valid range 0–12. -/
def scenarioTag13 : List Nat := [10, 0, 0, 13, 0, 0]

/-- A Compound whose single entry "x" is a String whose one payload byte is
`0xFF`, which is not valid in any UTF-8 sequence. -/
def scenarioBadUtf8 : List Nat := [10, 0, 0, 8, 0, 1, 120, 0, 1, 255, 0]

/-- A Compound whose single entry "x" is an IntArray of one element whose
four big-endian bytes are `00 00 00 01`. -/
def scenarioIntArray1 : List Nat :=
  [10, 0, 0, 11, 0, 1, 120, 0, 0, 0, 1, 0, 0, 0, 1, 0]

/-- C9: on the input `[0x0A,0x00,0x00, 0x03,0x00,0x01,'x',
0x00,0x00,0x00,0x2A, 0x00]`, `parse` succeeds and returns the empty name
paired with a Compound containing exactly one entry, named "x" (byte 0x78),
holding the Int value 42.  The result is host-byte-order independent. -/
theorem c9_concrete_int42 :
    parse .big scenarioInt42 = .ok ([], .compound [([120], .int 42)]) ∧
    parse .little scenarioInt42 = .ok ([], .compound [([120], .int 42)]) :=
  ⟨rfl, rfl⟩

/-- C1 evidence: a ByteArray payload declaring length `-1` drives the code
into a panic, not a typed error: `-1 as usize` is `2^64 - 1`, the
release-profile bounds check `pos + len > data.len()` wraps to `pos - 1`
and passes, and the slice `data[pos .. pos - 1]` panics (in the debug
profile the addition itself traps).  So `parse` aborts on malformed input
instead of returning a typed error value. -/
theorem c1_bytearray_negative_len_panics :
    parse .big scenarioByteArrayNeg = .panicked := rfl

/-- C2 evidence: a List payload declaring count `-1` is reinterpreted
`as usize` into `2^64 - 1` and handed to `Vec::with_capacity`, a
huge-allocation attempt that aborts (capacity above `isize::MAX`); the
decoder never produces a malformed-data error for the negative count. -/
theorem c2_list_negative_count_alloc_panics :
    parse .big scenarioListNeg = .panicked := rfl

/-- C3 evidence: a tag-type discriminant of 13 reaches the
`unreachable!("Invalid tag type: ...")` arm of `parse_payload`, a process
abort rather than a malformed-data error return. -/
theorem c3_unknown_discriminant_panics :
    parse .big scenarioTag13 = .panicked := rfl

/-- C5 evidence: a String payload whose byte `0xFF` cannot occur in any
valid UTF-8 sequence is decoded successfully: `parse_string` calls
`str::from_utf8_unchecked` and performs no validation, so the unvalidated
byte is exposed to the caller as text instead of yielding a
malformed-data error. -/
theorem c5_invalid_utf8_exposed :
    parse .big scenarioBadUtf8 = .ok ([], .compound [([120], .string [255])]) :=
  rfl

/-- C6 evidence: `read_i32_array` reinterprets raw memory via
`slice::from_raw_parts(ptr as *const i32, len)`, so each element takes the
HOST byte order.  On a little-endian host the element decoded from the
bytes `00 00 00 01` is `16777216`, whereas the big-endian interpretation
of that 4-byte group (obtained on a big-endian host) is `1`: the decoded
value depends on host byte order and is not the big-endian value. -/
theorem c6_intarray_host_endian_dependent :
    parse .little scenarioIntArray1 =
      .ok ([], .compound [([120], .intArray [16777216])]) ∧
    parse .big scenarioIntArray1 =
      .ok ([], .compound [([120], .intArray [1])]) ∧
    toSigned 32 (beWord [0, 0, 0, 1]) = 1 :=
  ⟨rfl, rfl, rfl⟩

/-! ## Inversion lemmas for the primitive reads -/

theorem PResult.bind_eq_ok {α β : Type} {r : PResult α} {f : α → PResult β}
    {b : β} : r.bind f = .ok b ↔ ∃ a, r = .ok a ∧ f a = .ok b := by
  cases r <;> simp [PResult.bind]

theorem i32AsUsize_lt (v : Int) : i32AsUsize v < usizeMod := by
  unfold i32AsUsize usizeMod
  have h1 : (0 : Int) < 2 ^ 64 := by norm_num
  have h2 := Int.emod_lt_of_pos v h1
  have h3 := Int.emod_nonneg v (by norm_num : (2 ^ 64 : Int) ≠ 0)
  omega

theorem readU8_eq_ok {data : List Nat} {pos v p : Nat} :
    readU8 data pos = .ok (v, p) ↔
      pos < data.length ∧ v = data.getD pos 0 ∧ p = pos + 1 := by
  unfold readU8
  split <;> rename_i h
  · exact ⟨fun hh => PResult.noConfusion hh, fun hh => by omega⟩
  · constructor
    · intro hh; cases hh; exact ⟨by omega, rfl, rfl⟩
    · rintro ⟨-, rfl, rfl⟩; rfl

theorem readU16_eq_ok {data : List Nat} {pos v p : Nat} :
    readU16 data pos = .ok (v, p) ↔
      pos + 2 ≤ data.length ∧ v = beWord ((data.drop pos).take 2) ∧
        p = pos + 2 := by
  unfold readU16
  split <;> rename_i h
  · exact ⟨fun hh => PResult.noConfusion hh, fun hh => by omega⟩
  · constructor
    · intro hh; cases hh; exact ⟨by omega, rfl, rfl⟩
    · rintro ⟨-, rfl, rfl⟩; rfl

theorem readU32_eq_ok {data : List Nat} {pos v p : Nat} :
    readU32 data pos = .ok (v, p) ↔
      pos + 4 ≤ data.length ∧ v = beWord ((data.drop pos).take 4) ∧
        p = pos + 4 := by
  unfold readU32
  split <;> rename_i h
  · exact ⟨fun hh => PResult.noConfusion hh, fun hh => by omega⟩
  · constructor
    · intro hh; cases hh; exact ⟨by omega, rfl, rfl⟩
    · rintro ⟨-, rfl, rfl⟩; rfl

theorem readU64_eq_ok {data : List Nat} {pos v p : Nat} :
    readU64 data pos = .ok (v, p) ↔
      pos + 8 ≤ data.length ∧ v = beWord ((data.drop pos).take 8) ∧
        p = pos + 8 := by
  unfold readU64
  split <;> rename_i h
  · exact ⟨fun hh => PResult.noConfusion hh, fun hh => by omega⟩
  · constructor
    · intro hh; cases hh; exact ⟨by omega, rfl, rfl⟩
    · rintro ⟨-, rfl, rfl⟩; rfl

theorem readI32_eq_ok {data : List Nat} {pos : Nat} {v : Int} {p : Nat} :
    readI32 data pos = .ok (v, p) ↔
      pos + 4 ≤ data.length ∧
        v = toSigned 32 (beWord ((data.drop pos).take 4)) ∧ p = pos + 4 := by
  unfold readI32
  constructor
  · intro hh
    obtain ⟨⟨w, q⟩, hw, hv⟩ := PResult.bind_eq_ok.mp hh
    obtain ⟨h1, rfl, rfl⟩ := readU32_eq_ok.mp hw
    cases hv
    exact ⟨h1, rfl, rfl⟩
  · rintro ⟨h1, rfl, rfl⟩
    rw [PResult.bind_eq_ok]
    exact ⟨_, readU32_eq_ok.mpr ⟨h1, rfl, rfl⟩, rfl⟩

theorem parseString_eq_ok {data : List Nat} {pos : Nat} {s : List Nat}
    {p : Nat} :
    parseString data pos = .ok (s, p) ↔
      pos + 2 ≤ data.length ∧
        pos + 2 + beWord ((data.drop pos).take 2) ≤ data.length ∧
        s = (data.drop (pos + 2)).take (beWord ((data.drop pos).take 2)) ∧
        p = pos + 2 + beWord ((data.drop pos).take 2) := by
  unfold parseString
  constructor
  · intro hh
    obtain ⟨⟨len, q⟩, hw, hv⟩ := PResult.bind_eq_ok.mp hh
    obtain ⟨h1, rfl, rfl⟩ := readU16_eq_ok.mp hw
    dsimp at hv
    split at hv
    · exact PResult.noConfusion hv
    · cases hv; exact ⟨h1, by omega, rfl, rfl⟩
  · rintro ⟨h1, h2, rfl, rfl⟩
    rw [PResult.bind_eq_ok]
    refine ⟨_, readU16_eq_ok.mpr ⟨h1, rfl, rfl⟩, ?_⟩
    dsimp
    rw [if_neg (by omega)]

/-- On success, a byte view lies within bounds and does not wrap: the
returned cursor is `pos + len` exactly.  (`len < 2^64` holds at every call
site since `len` comes from `i32AsUsize`.) -/
theorem takeByteView_eq_ok {data : List Nat} {pos len : Nat} {bs : List Nat}
    {p : Nat} (hL : data.length ≤ isizeMax) (hlen : len < usizeMod) :
    takeByteView data pos len = .ok (bs, p) ↔
      pos + len ≤ data.length ∧ bs = (data.drop pos).take len ∧
        p = pos + len := by
  unfold isizeMax at hL
  unfold takeByteView usizeAdd usizeMod at *
  constructor
  · intro hh
    dsimp at hh
    split at hh
    · exact PResult.noConfusion hh
    · split at hh
      · exact PResult.noConfusion hh
      · rename_i h1 h2
        cases hh
        have hnw : (pos + len) % 18446744073709551616 = pos + len := by omega
        exact ⟨by omega, rfl, by omega⟩
  · rintro ⟨h1, rfl, rfl⟩
    have hnw : (pos + len) % 18446744073709551616 = pos + len := by omega
    dsimp
    rw [hnw, if_neg (by omega), if_neg (by omega)]

/-- Array lengths produced by `read_i32()? as usize`: either a small
non-negative value or the sign-extension of a negative 32-bit value. -/
def I32UsizeRange (len : Nat) : Prop :=
  len < 2 ^ 31 ∨ (2 ^ 64 - 2 ^ 31 ≤ len ∧ len < 2 ^ 64)

theorem i32AsUsize_toSigned (w : Nat) (hw : w < 2 ^ 32) :
    i32AsUsize (toSigned 32 w) =
      if w < 2 ^ 31 then w else 2 ^ 64 - 2 ^ 32 + w := by
  unfold i32AsUsize toSigned usizeMod
  norm_num
  split <;> rename_i h <;> omega

theorem i32AsUsize_range {w : Nat} (hw : w < 2 ^ 32) :
    I32UsizeRange (i32AsUsize (toSigned 32 w)) := by
  unfold I32UsizeRange
  rw [i32AsUsize_toSigned w hw]
  split <;> omega

theorem beWord_lt (bs : List Nat) (h : ∀ b ∈ bs, b < 256) :
    beWord bs < 256 ^ bs.length := by
  induction bs using List.reverseRecOn with
  | nil => norm_num [beWord]
  | append_singleton xs x ih =>
      have hx : x < 256 := h x (by simp)
      have hxs := ih (fun b hb => h b (by simp [hb]))
      simp only [beWord, List.foldl_append, List.foldl_cons, List.foldl_nil,
        List.length_append, List.length_cons, List.length_nil] at *
      rw [pow_succ]
      calc beWord xs * 256 + x < (beWord xs + 1) * 256 := by omega
        _ ≤ 256 ^ xs.length * 256 := by
            have : beWord xs + 1 ≤ 256 ^ xs.length := hxs
            exact Nat.mul_le_mul_right 256 this

theorem readI32Array_eq_ok {host : Endian} {data : List Nat} {pos len : Nat}
    {xs : List Int} {p : Nat} (hL : data.length ≤ isizeMax)
    (hrange : I32UsizeRange len) :
    readI32Array host data pos len = .ok (xs, p) ↔
      len < 2 ^ 31 ∧ pos + 4 * len ≤ data.length ∧
        xs = (List.range len).map
          (fun i => toSigned 32 (hostWord host ((data.drop (pos + 4 * i)).take 4))) ∧
        p = pos + 4 * len := by
  unfold isizeMax at hL
  unfold I32UsizeRange at hrange
  unfold readI32Array usizeAdd usizeMul usizeMod
  constructor
  · intro hh
    dsimp at hh
    split at hh
    · exact PResult.noConfusion hh
    · split at hh
      · exact PResult.noConfusion hh
      · rename_i h1 h2
        cases hh
        have hsmall : len < 2 ^ 31 := by
          rcases hrange with hr | hr
          · exact hr
          · exfalso
            have hb : len * 4 % 18446744073709551616 =
                len * 4 - 3 * 18446744073709551616 := by omega
            omega
        have hb : len * 4 % 18446744073709551616 = len * 4 := by omega
        rw [hb] at h1 h2
        have hnw : (pos + len * 4) % 18446744073709551616 = pos + len * 4 := by
          omega
        rw [hnw] at h1 h2
        exact ⟨hsmall, by omega, rfl, by omega⟩
  · rintro ⟨hsmall, hle, rfl, rfl⟩
    have hb : len * 4 % 18446744073709551616 = len * 4 := by omega
    have hnw : (pos + len * 4) % 18446744073709551616 = pos + len * 4 := by
      omega
    dsimp
    rw [hb, hnw, if_neg (by omega), if_neg (by omega)]
    have : pos + len * 4 = pos + 4 * len := by ring
    rw [this]

theorem readI64Array_eq_ok {host : Endian} {data : List Nat} {pos len : Nat}
    {xs : List Int} {p : Nat} (hL : data.length ≤ isizeMax)
    (hrange : I32UsizeRange len) :
    readI64Array host data pos len = .ok (xs, p) ↔
      len < 2 ^ 31 ∧ pos + 8 * len ≤ data.length ∧
        xs = (List.range len).map
          (fun i => toSigned 64 (hostWord host ((data.drop (pos + 8 * i)).take 8))) ∧
        p = pos + 8 * len := by
  unfold isizeMax at hL
  unfold I32UsizeRange at hrange
  unfold readI64Array usizeAdd usizeMul usizeMod
  constructor
  · intro hh
    dsimp at hh
    split at hh
    · exact PResult.noConfusion hh
    · split at hh
      · exact PResult.noConfusion hh
      · rename_i h1 h2
        cases hh
        have hsmall : len < 2 ^ 31 := by
          rcases hrange with hr | hr
          · exact hr
          · exfalso
            have hb : len * 8 % 18446744073709551616 =
                len * 8 - 7 * 18446744073709551616 := by omega
            omega
        have hb : len * 8 % 18446744073709551616 = len * 8 := by omega
        rw [hb] at h1 h2
        have hnw : (pos + len * 8) % 18446744073709551616 = pos + len * 8 := by
          omega
        rw [hnw] at h1 h2
        exact ⟨hsmall, by omega, rfl, by omega⟩
  · rintro ⟨hsmall, hle, rfl, rfl⟩
    have hb : len * 8 % 18446744073709551616 = len * 8 := by omega
    have hnw : (pos + len * 8) % 18446744073709551616 = pos + len * 8 := by
      omega
    dsimp
    rw [hb, hnw, if_neg (by omega), if_neg (by omega)]
    have : pos + len * 8 = pos + 8 * len := by ring
    rw [this]

/-! ## Cursor monotonicity: a successful parse never rewinds and stays in
bounds -/

theorem readI8_eq_ok {data : List Nat} {pos : Nat} {v : Int} {p : Nat} :
    readI8 data pos = .ok (v, p) ↔
      pos + 1 ≤ data.length ∧ v = toSigned 8 (data.getD pos 0) ∧
        p = pos + 1 := by
  unfold readI8
  constructor
  · intro hh
    obtain ⟨⟨w, q⟩, hw, hv⟩ := PResult.bind_eq_ok.mp hh
    obtain ⟨h1, rfl, rfl⟩ := readU8_eq_ok.mp hw
    cases hv
    exact ⟨by omega, rfl, rfl⟩
  · rintro ⟨h1, rfl, rfl⟩
    rw [PResult.bind_eq_ok]
    exact ⟨_, readU8_eq_ok.mpr ⟨by omega, rfl, rfl⟩, rfl⟩

theorem readI16_eq_ok {data : List Nat} {pos : Nat} {v : Int} {p : Nat} :
    readI16 data pos = .ok (v, p) ↔
      pos + 2 ≤ data.length ∧
        v = toSigned 16 (beWord ((data.drop pos).take 2)) ∧ p = pos + 2 := by
  unfold readI16
  constructor
  · intro hh
    obtain ⟨⟨w, q⟩, hw, hv⟩ := PResult.bind_eq_ok.mp hh
    obtain ⟨h1, rfl, rfl⟩ := readU16_eq_ok.mp hw
    cases hv
    exact ⟨h1, rfl, rfl⟩
  · rintro ⟨h1, rfl, rfl⟩
    rw [PResult.bind_eq_ok]
    exact ⟨_, readU16_eq_ok.mpr ⟨h1, rfl, rfl⟩, rfl⟩

theorem readI64_eq_ok {data : List Nat} {pos : Nat} {v : Int} {p : Nat} :
    readI64 data pos = .ok (v, p) ↔
      pos + 8 ≤ data.length ∧
        v = toSigned 64 (beWord ((data.drop pos).take 8)) ∧ p = pos + 8 := by
  unfold readI64
  constructor
  · intro hh
    obtain ⟨⟨w, q⟩, hw, hv⟩ := PResult.bind_eq_ok.mp hh
    obtain ⟨h1, rfl, rfl⟩ := readU64_eq_ok.mp hw
    cases hv
    exact ⟨h1, rfl, rfl⟩
  · rintro ⟨h1, rfl, rfl⟩
    rw [PResult.bind_eq_ok]
    exact ⟨_, readU64_eq_ok.mpr ⟨h1, rfl, rfl⟩, rfl⟩

theorem takeByteView_bounds {data : List Nat} {pos len : Nat} {bs : List Nat}
    {p : Nat} (hh : takeByteView data pos len = .ok (bs, p)) :
    pos ≤ p ∧ p ≤ data.length := by
  unfold takeByteView at hh
  dsimp at hh
  split at hh
  · exact PResult.noConfusion hh
  · split at hh
    · exact PResult.noConfusion hh
    · cases hh; omega

theorem readI32Array_bounds {host : Endian} {data : List Nat} {pos len : Nat}
    {xs : List Int} {p : Nat}
    (hh : readI32Array host data pos len = .ok (xs, p)) :
    pos ≤ p ∧ p ≤ data.length := by
  unfold readI32Array at hh
  dsimp at hh
  split at hh
  · exact PResult.noConfusion hh
  · split at hh
    · exact PResult.noConfusion hh
    · cases hh; omega

theorem readI64Array_bounds {host : Endian} {data : List Nat} {pos len : Nat}
    {xs : List Int} {p : Nat}
    (hh : readI64Array host data pos len = .ok (xs, p)) :
    pos ≤ p ∧ p ≤ data.length := by
  unfold readI64Array at hh
  dsimp at hh
  split at hh
  · exact PResult.noConfusion hh
  · split at hh
    · exact PResult.noConfusion hh
    · cases hh; omega

theorem runListLoop_mono {L : Nat} {step : Nat → PResult (NbtTag × Nat)}
    (hstep : ∀ q t p, q ≤ L → step q = .ok (t, p) → q ≤ p ∧ p ≤ L) :
    ∀ c pos ts p, pos ≤ L → runListLoop step c pos = .ok (ts, p) →
      pos ≤ p ∧ p ≤ L := by
  intro c
  induction c with
  | zero =>
      intro pos ts p hpos hh
      unfold runListLoop at hh
      cases hh
      exact ⟨le_refl _, hpos⟩
  | succ c ih =>
      intro pos ts p hpos hh
      unfold runListLoop at hh
      obtain ⟨⟨t1, p1⟩, h1, h2⟩ := PResult.bind_eq_ok.mp hh
      obtain ⟨hq1, hq2⟩ := hstep pos t1 p1 hpos h1
      obtain ⟨⟨ts2, p2⟩, h3, h4⟩ := PResult.bind_eq_ok.mp h2
      cases h4
      obtain ⟨hr1, hr2⟩ := ih p1 _ _ hq2 h3
      exact ⟨le_trans hq1 hr1, hr2⟩

theorem runCompoundLoop_mono {data : List Nat}
    {step : Nat → Nat → PResult (NbtTag × Nat)}
    (hstep : ∀ tg q t p, q ≤ data.length → step tg q = .ok (t, p) →
      q ≤ p ∧ p ≤ data.length) :
    ∀ g pos acc es p, runCompoundLoop data step g pos acc = .ok (es, p) →
      pos ≤ p ∧ p ≤ data.length := by
  intro g
  induction g with
  | zero =>
      intro pos acc es p hh
      exact PResult.noConfusion hh
  | succ g ih =>
      intro pos acc es p hh
      unfold runCompoundLoop at hh
      obtain ⟨⟨tg, p1⟩, h1, h2⟩ := PResult.bind_eq_ok.mp hh
      obtain ⟨hlt, -, rfl⟩ := readU8_eq_ok.mp h1
      dsimp at h2
      split at h2
      · cases h2; omega
      · obtain ⟨⟨name, p2⟩, h3, h4⟩ := PResult.bind_eq_ok.mp h2
        obtain ⟨-, hs2, -, rfl⟩ := parseString_eq_ok.mp h3
        obtain ⟨⟨t1, p3⟩, h5, h6⟩ := PResult.bind_eq_ok.mp h4
        obtain ⟨hq1, hq2⟩ := hstep tg _ t1 p3 hs2 h5
        obtain ⟨hr1, hr2⟩ := ih p3 _ es p h6
        exact ⟨by omega, hr2⟩

theorem payloadStep_mono {host : Endian} {data : List Nat}
    {recur : Nat → Nat → PResult (NbtTag × Nat)} {loopFuel : Nat}
    (hrec : ∀ tg q t p, q ≤ data.length → recur tg q = .ok (t, p) →
      q ≤ p ∧ p ≤ data.length) :
    ∀ tag pos t p, pos ≤ data.length →
      payloadStep host data recur loopFuel tag pos = .ok (t, p) →
      pos ≤ p ∧ p ≤ data.length := by
  intro tag pos t p hpos hh
  unfold payloadStep at hh
  split at hh
  · cases hh; exact ⟨le_refl _, hpos⟩
  · obtain ⟨⟨v, q⟩, hr, hv⟩ := PResult.bind_eq_ok.mp hh
    obtain ⟨h1, -, rfl⟩ := readI8_eq_ok.mp hr
    cases hv; omega
  · obtain ⟨⟨v, q⟩, hr, hv⟩ := PResult.bind_eq_ok.mp hh
    obtain ⟨h1, -, rfl⟩ := readI16_eq_ok.mp hr
    cases hv; omega
  · obtain ⟨⟨v, q⟩, hr, hv⟩ := PResult.bind_eq_ok.mp hh
    obtain ⟨h1, -, rfl⟩ := readI32_eq_ok.mp hr
    cases hv; omega
  · obtain ⟨⟨v, q⟩, hr, hv⟩ := PResult.bind_eq_ok.mp hh
    obtain ⟨h1, -, rfl⟩ := readI64_eq_ok.mp hr
    cases hv; omega
  · obtain ⟨⟨v, q⟩, hr, hv⟩ := PResult.bind_eq_ok.mp hh
    obtain ⟨h1, -, rfl⟩ := readU32_eq_ok.mp hr
    cases hv; omega
  · obtain ⟨⟨v, q⟩, hr, hv⟩ := PResult.bind_eq_ok.mp hh
    obtain ⟨h1, -, rfl⟩ := readU64_eq_ok.mp hr
    cases hv; omega
  · obtain ⟨⟨v, q⟩, hr, hv⟩ := PResult.bind_eq_ok.mp hh
    obtain ⟨h1, -, rfl⟩ := readI32_eq_ok.mp hr
    obtain ⟨⟨bs, q2⟩, hb, hv2⟩ := PResult.bind_eq_ok.mp hv
    obtain ⟨hq1, hq2⟩ := takeByteView_bounds hb
    cases hv2; omega
  · obtain ⟨⟨s, q⟩, hr, hv⟩ := PResult.bind_eq_ok.mp hh
    obtain ⟨-, hs2, -, rfl⟩ := parseString_eq_ok.mp hr
    cases hv; omega
  · obtain ⟨⟨itemType, p1⟩, hr, hv⟩ := PResult.bind_eq_ok.mp hh
    obtain ⟨hlt, -, rfl⟩ := readU8_eq_ok.mp hr
    obtain ⟨⟨v, p2⟩, hr2, hv2⟩ := PResult.bind_eq_ok.mp hv
    obtain ⟨h2, -, rfl⟩ := readI32_eq_ok.mp hr2
    dsimp at hv2
    split at hv2
    · exact PResult.noConfusion hv2
    · obtain ⟨⟨ts, q⟩, hl, hv3⟩ := PResult.bind_eq_ok.mp hv2
      cases hv3
      have := runListLoop_mono
        (fun q1 t1 q2 hq1 hstep => hrec itemType q1 t1 q2 hq1 hstep) _ _ _ _
        (by omega) hl
      omega
  · obtain ⟨⟨es, q⟩, hc, hv⟩ := PResult.bind_eq_ok.mp hh
    cases hv
    have := runCompoundLoop_mono hrec _ _ _ _ _ hc
    omega
  · obtain ⟨⟨v, q⟩, hr, hv⟩ := PResult.bind_eq_ok.mp hh
    obtain ⟨h1, -, rfl⟩ := readI32_eq_ok.mp hr
    obtain ⟨⟨xs, q2⟩, ha, hv2⟩ := PResult.bind_eq_ok.mp hv
    obtain ⟨hq1, hq2⟩ := readI32Array_bounds ha
    cases hv2; omega
  · obtain ⟨⟨v, q⟩, hr, hv⟩ := PResult.bind_eq_ok.mp hh
    obtain ⟨h1, -, rfl⟩ := readI32_eq_ok.mp hr
    obtain ⟨⟨xs, q2⟩, ha, hv2⟩ := PResult.bind_eq_ok.mp hv
    obtain ⟨hq1, hq2⟩ := readI64Array_bounds ha
    cases hv2; omega
  · exact PResult.noConfusion hh

theorem parsePayload_mono {host : Endian} {data : List Nat} :
    ∀ f tag pos t p, pos ≤ data.length →
      parsePayload host data f tag pos = .ok (t, p) →
      pos ≤ p ∧ p ≤ data.length := by
  intro f
  induction f with
  | zero =>
      intro tag pos t p _ hh
      exact PResult.noConfusion hh
  | succ g ih =>
      intro tag pos t p hpos hh
      rw [parsePayload] at hh
      exact payloadStep_mono
        (fun tg q t1 p1 hq hcall => ih tg q t1 p1 hq hcall) tag pos t p hpos hh

/-! ## Fuel sufficiency: with fuel at least `2 * (remaining bytes) + 2`,
the embedding never exhausts its fuel -/

theorem PResult.bind_ne_oof {α β : Type} {r : PResult α}
    {f : α → PResult β} (h1 : r ≠ .outOfFuel)
    (h2 : ∀ a, f a ≠ .outOfFuel) : r.bind f ≠ .outOfFuel := by
  cases r with
  | ok a => exact h2 a
  | err e => exact fun h => PResult.noConfusion h
  | panicked => exact fun h => PResult.noConfusion h
  | outOfFuel => exact absurd rfl h1

theorem readU8_ne_oof {data : List Nat} {pos : Nat} :
    readU8 data pos ≠ .outOfFuel := by
  unfold readU8
  split <;> exact fun h => PResult.noConfusion h

theorem readU16_ne_oof {data : List Nat} {pos : Nat} :
    readU16 data pos ≠ .outOfFuel := by
  unfold readU16
  split <;> exact fun h => PResult.noConfusion h

theorem readU32_ne_oof {data : List Nat} {pos : Nat} :
    readU32 data pos ≠ .outOfFuel := by
  unfold readU32
  split <;> exact fun h => PResult.noConfusion h

theorem readU64_ne_oof {data : List Nat} {pos : Nat} :
    readU64 data pos ≠ .outOfFuel := by
  unfold readU64
  split <;> exact fun h => PResult.noConfusion h

theorem readI8_ne_oof {data : List Nat} {pos : Nat} :
    readI8 data pos ≠ .outOfFuel :=
  PResult.bind_ne_oof readU8_ne_oof (fun _ h => PResult.noConfusion h)

theorem readI16_ne_oof {data : List Nat} {pos : Nat} :
    readI16 data pos ≠ .outOfFuel :=
  PResult.bind_ne_oof readU16_ne_oof (fun _ h => PResult.noConfusion h)

theorem readI32_ne_oof {data : List Nat} {pos : Nat} :
    readI32 data pos ≠ .outOfFuel :=
  PResult.bind_ne_oof readU32_ne_oof (fun _ h => PResult.noConfusion h)

theorem readI64_ne_oof {data : List Nat} {pos : Nat} :
    readI64 data pos ≠ .outOfFuel :=
  PResult.bind_ne_oof readU64_ne_oof (fun _ h => PResult.noConfusion h)

theorem parseString_ne_oof {data : List Nat} {pos : Nat} :
    parseString data pos ≠ .outOfFuel := by
  unfold parseString
  refine PResult.bind_ne_oof readU16_ne_oof (fun a => ?_)
  obtain ⟨len, p⟩ := a
  dsimp only
  split <;> exact fun h => PResult.noConfusion h

theorem takeByteView_ne_oof {data : List Nat} {pos len : Nat} :
    takeByteView data pos len ≠ .outOfFuel := by
  unfold takeByteView
  dsimp only
  split
  · exact fun h => PResult.noConfusion h
  · split <;> exact fun h => PResult.noConfusion h

theorem readI32Array_ne_oof {host : Endian} {data : List Nat}
    {pos len : Nat} : readI32Array host data pos len ≠ .outOfFuel := by
  unfold readI32Array
  dsimp only
  split
  · exact fun h => PResult.noConfusion h
  · split <;> exact fun h => PResult.noConfusion h

theorem readI64Array_ne_oof {host : Endian} {data : List Nat}
    {pos len : Nat} : readI64Array host data pos len ≠ .outOfFuel := by
  unfold readI64Array
  dsimp only
  split
  · exact fun h => PResult.noConfusion h
  · split <;> exact fun h => PResult.noConfusion h

theorem PResult.bind_ne_oof2 {α β : Type} {r : PResult α}
    {f : α → PResult β} (h1 : r ≠ .outOfFuel)
    (h2 : ∀ a, r = .ok a → f a ≠ .outOfFuel) : r.bind f ≠ .outOfFuel := by
  cases r with
  | ok a => exact h2 a rfl
  | err e => exact fun h => PResult.noConfusion h
  | panicked => exact fun h => PResult.noConfusion h
  | outOfFuel => exact absurd rfl h1

theorem runListLoop_ne_oof {L : Nat} (lo : Nat)
    {step : Nat → PResult (NbtTag × Nat)}
    (hmono : ∀ q t p, q ≤ L → step q = .ok (t, p) → q ≤ p ∧ p ≤ L)
    (hf : ∀ q, lo ≤ q → q ≤ L → step q ≠ .outOfFuel) :
    ∀ c pos, lo ≤ pos → pos ≤ L →
      runListLoop step c pos ≠ .outOfFuel := by
  intro c
  induction c with
  | zero =>
      intro pos _ _
      exact fun h => PResult.noConfusion h
  | succ c ih =>
      intro pos hlo hL
      unfold runListLoop
      refine PResult.bind_ne_oof2 (hf pos hlo hL) (fun a hs => ?_)
      obtain ⟨t1, p1⟩ := a
      obtain ⟨hq1, hq2⟩ := hmono pos t1 p1 hL hs
      dsimp only
      exact PResult.bind_ne_oof2 (ih p1 (by omega) hq2)
        (fun _ _ h => PResult.noConfusion h)

theorem runCompoundLoop_ne_oof {data : List Nat} (lo : Nat)
    {step : Nat → Nat → PResult (NbtTag × Nat)}
    (hmono : ∀ tg q t p, q ≤ data.length → step tg q = .ok (t, p) →
      q ≤ p ∧ p ≤ data.length)
    (hf : ∀ tg q, lo + 3 ≤ q → q ≤ data.length → step tg q ≠ .outOfFuel) :
    ∀ g pos acc, lo ≤ pos → pos ≤ data.length →
      data.length - pos + 1 ≤ g →
      runCompoundLoop data step g pos acc ≠ .outOfFuel := by
  intro g
  induction g with
  | zero =>
      intro pos acc _ _ hg
      omega
  | succ g ih =>
      intro pos acc hlo hL hg
      unfold runCompoundLoop
      refine PResult.bind_ne_oof2 readU8_ne_oof (fun a ha => ?_)
      obtain ⟨tg, p1⟩ := a
      obtain ⟨hlt, -, rfl⟩ := readU8_eq_ok.mp ha
      dsimp only
      split
      · exact fun h => PResult.noConfusion h
      · refine PResult.bind_ne_oof2 parseString_ne_oof (fun b hb => ?_)
        obtain ⟨name, p2⟩ := b
        obtain ⟨-, hs2, -, hp2⟩ := parseString_eq_ok.mp hb
        dsimp only
        refine PResult.bind_ne_oof2 (hf tg p2 (by omega) (by omega))
          (fun c hc => ?_)
        obtain ⟨t1, p3⟩ := c
        obtain ⟨hq1, hq2⟩ := hmono tg p2 t1 p3 (by omega) hc
        dsimp only
        exact ih p3 _ (by omega) hq2 (by omega)

theorem parsePayload_ne_oof (host : Endian) (data : List Nat) :
    ∀ f tag pos, pos ≤ data.length →
      2 * (data.length - pos) + 2 ≤ f →
      parsePayload host data f tag pos ≠ .outOfFuel := by
  intro f
  induction f with
  | zero => intro tag pos _ hf; omega
  | succ g ih =>
      intro tag pos hpos hf
      rw [parsePayload]
      unfold payloadStep
      split
      · exact fun h => PResult.noConfusion h
      · exact PResult.bind_ne_oof2 readI8_ne_oof
          (fun _ _ h => PResult.noConfusion h)
      · exact PResult.bind_ne_oof2 readI16_ne_oof
          (fun _ _ h => PResult.noConfusion h)
      · exact PResult.bind_ne_oof2 readI32_ne_oof
          (fun _ _ h => PResult.noConfusion h)
      · exact PResult.bind_ne_oof2 readI64_ne_oof
          (fun _ _ h => PResult.noConfusion h)
      · exact PResult.bind_ne_oof2 readU32_ne_oof
          (fun _ _ h => PResult.noConfusion h)
      · exact PResult.bind_ne_oof2 readU64_ne_oof
          (fun _ _ h => PResult.noConfusion h)
      · refine PResult.bind_ne_oof2 readI32_ne_oof (fun a _ => ?_)
        obtain ⟨v, p⟩ := a
        exact PResult.bind_ne_oof2 takeByteView_ne_oof
          (fun _ _ h => PResult.noConfusion h)
      · exact PResult.bind_ne_oof2 parseString_ne_oof
          (fun _ _ h => PResult.noConfusion h)
      · refine PResult.bind_ne_oof2 readU8_ne_oof (fun a ha => ?_)
        obtain ⟨itemType, p1⟩ := a
        obtain ⟨hlt, -, rfl⟩ := readU8_eq_ok.mp ha
        refine PResult.bind_ne_oof2 readI32_ne_oof (fun b hb => ?_)
        obtain ⟨v, p2⟩ := b
        obtain ⟨h2, -, rfl⟩ := readI32_eq_ok.mp hb
        dsimp only
        split
        · exact fun h => PResult.noConfusion h
        · refine PResult.bind_ne_oof2 ?_ (fun _ _ h => PResult.noConfusion h)
          refine runListLoop_ne_oof (pos + 1 + 4)
            (fun q1 t1 q2 hq1 hcall =>
              parsePayload_mono g itemType q1 t1 q2 hq1 hcall)
            (fun q hq1 hq2 => ih itemType q hq2 (by omega)) _ _
            (by omega) (by omega)
      · refine PResult.bind_ne_oof2 ?_ (fun _ _ h => PResult.noConfusion h)
        refine runCompoundLoop_ne_oof pos
          (fun tg q1 t1 q2 hq1 hcall =>
            parsePayload_mono g tg q1 t1 q2 hq1 hcall)
          (fun tg q hq1 hq2 => ih tg q hq2 (by omega)) _ _ _
          (le_refl _) hpos (by omega)
      · refine PResult.bind_ne_oof2 readI32_ne_oof (fun a _ => ?_)
        obtain ⟨v, p⟩ := a
        exact PResult.bind_ne_oof2 readI32Array_ne_oof
          (fun _ _ h => PResult.noConfusion h)
      · refine PResult.bind_ne_oof2 readI32_ne_oof (fun a _ => ?_)
        obtain ⟨v, p⟩ := a
        exact PResult.bind_ne_oof2 readI64Array_ne_oof
          (fun _ _ h => PResult.noConfusion h)
      · exact fun h => PResult.noConfusion h

/-! ## Fuel stability: once the fuel suffices, the result is independent of
it -/

theorem runListLoop_congr {step stepB : Nat → PResult (NbtTag × Nat)}
    (hagree : ∀ q r, step q = r → r ≠ .outOfFuel → stepB q = r) :
    ∀ c pos r, runListLoop step c pos = r → r ≠ .outOfFuel →
      runListLoop stepB c pos = r := by
  intro c
  induction c with
  | zero =>
      intro pos r hh _
      exact hh
  | succ c ih =>
      intro pos r hh hne
      unfold runListLoop at hh ⊢
      cases hstep : step pos with
      | outOfFuel =>
          rw [hstep] at hh
          exact absurd hh.symm hne
      | err e =>
          rw [hagree pos _ hstep (fun h => PResult.noConfusion h)]
          rw [hstep] at hh
          exact hh
      | panicked =>
          rw [hagree pos _ hstep (fun h => PResult.noConfusion h)]
          rw [hstep] at hh
          exact hh
      | ok a =>
          rw [hagree pos _ hstep (fun h => PResult.noConfusion h)]
          rw [hstep] at hh
          obtain ⟨t1, p1⟩ := a
          dsimp only [PResult.bind] at hh ⊢
          cases hrec : runListLoop step c p1 with
          | outOfFuel =>
              rw [hrec] at hh
              exact absurd hh.symm hne
          | err e =>
              rw [ih p1 _ hrec (fun h => PResult.noConfusion h)]
              rw [hrec] at hh
              exact hh
          | panicked =>
              rw [ih p1 _ hrec (fun h => PResult.noConfusion h)]
              rw [hrec] at hh
              exact hh
          | ok b =>
              rw [ih p1 _ hrec (fun h => PResult.noConfusion h)]
              rw [hrec] at hh
              exact hh

theorem runCompoundLoop_congr {data : List Nat}
    {step stepB : Nat → Nat → PResult (NbtTag × Nat)}
    (hagree : ∀ tg q r, step tg q = r → r ≠ .outOfFuel → stepB tg q = r) :
    ∀ g gB pos acc r, g ≤ gB →
      runCompoundLoop data step g pos acc = r → r ≠ .outOfFuel →
      runCompoundLoop data stepB gB pos acc = r := by
  intro g
  induction g with
  | zero =>
      intro gB pos acc r _ hh hne
      exact absurd hh.symm hne
  | succ g ih =>
      intro gB pos acc r hg hh hne
      obtain ⟨gB, rfl⟩ : ∃ h, gB = h + 1 := ⟨gB - 1, by omega⟩
      unfold runCompoundLoop at hh ⊢
      cases hread : readU8 data pos with
      | outOfFuel => exact absurd hread readU8_ne_oof
      | err e =>
          rw [hread] at hh
          exact hh
      | panicked =>
          rw [hread] at hh
          exact hh
      | ok a =>
          rw [hread] at hh
          obtain ⟨tg, p1⟩ := a
          dsimp only [PResult.bind] at hh ⊢
          by_cases htg : tg = 0
          · subst htg
            exact hh
          · simp only [if_neg htg] at hh ⊢
            cases hstr : parseString data p1 with
            | outOfFuel => exact absurd hstr parseString_ne_oof
            | err e =>
                rw [hstr] at hh
                exact hh
            | panicked =>
                rw [hstr] at hh
                exact hh
            | ok b =>
                rw [hstr] at hh
                obtain ⟨name, p2⟩ := b
                dsimp only [PResult.bind] at hh ⊢
                cases hstep : step tg p2 with
                | outOfFuel =>
                    rw [hstep] at hh
                    dsimp only [PResult.bind] at hh
                    exact absurd hh.symm hne
                | err e =>
                    rw [hagree tg p2 _ hstep (fun h => PResult.noConfusion h)]
                    rw [hstep] at hh
                    exact hh
                | panicked =>
                    rw [hagree tg p2 _ hstep (fun h => PResult.noConfusion h)]
                    rw [hstep] at hh
                    exact hh
                | ok c =>
                    rw [hagree tg p2 _ hstep (fun h => PResult.noConfusion h)]
                    rw [hstep] at hh
                    obtain ⟨t1, p3⟩ := c
                    dsimp only [PResult.bind] at hh ⊢
                    exact ih gB p3 _ r (by omega) hh hne

theorem payloadStep_congr {host : Endian} {data : List Nat}
    {recur recurB : Nat → Nat → PResult (NbtTag × Nat)}
    {loopFuel loopFuelB : Nat}
    (hagree : ∀ tg q r, recur tg q = r → r ≠ .outOfFuel → recurB tg q = r)
    (hfuel : loopFuel ≤ loopFuelB) :
    ∀ tag pos r, payloadStep host data recur loopFuel tag pos = r →
      r ≠ .outOfFuel → payloadStep host data recurB loopFuelB tag pos = r := by
  intro tag pos r hh hne
  rcases tag with _|_|_|_|_|_|_|_|_|_|_|_|_|n <;> unfold payloadStep at hh ⊢
  · exact hh
  · exact hh
  · exact hh
  · exact hh
  · exact hh
  · exact hh
  · exact hh
  · exact hh
  · exact hh
  · -- List: the element loop runs `recur` versus `recurB`
    cases hr : readU8 data pos with
    | outOfFuel => exact absurd hr readU8_ne_oof
    | err e =>
        rw [hr] at hh
        exact hh
    | panicked =>
        rw [hr] at hh
        exact hh
    | ok a =>
        rw [hr] at hh
        obtain ⟨itemType, p1⟩ := a
        dsimp only [PResult.bind] at hh ⊢
        cases hr2 : readI32 data p1 with
        | outOfFuel => exact absurd hr2 readI32_ne_oof
        | err e =>
            rw [hr2] at hh
            exact hh
        | panicked =>
            rw [hr2] at hh
            exact hh
        | ok b =>
            rw [hr2] at hh
            obtain ⟨v, p2⟩ := b
            dsimp only [PResult.bind] at hh ⊢
            by_cases hlen : i32AsUsize v > isizeMax
            · simp only [if_pos hlen] at hh ⊢
              exact hh
            · simp only [if_neg hlen] at hh ⊢
              cases hloop :
                  runListLoop (fun q => recur itemType q) (i32AsUsize v) p2 with
              | outOfFuel =>
                  rw [hloop] at hh
                  dsimp only [PResult.bind] at hh
                  exact absurd hh.symm hne
              | err e =>
                  rw [runListLoop_congr
                    (fun q r2 hq hq2 => hagree itemType q r2 hq hq2) _ _ _
                    hloop (fun h => PResult.noConfusion h)]
                  rw [hloop] at hh
                  exact hh
              | panicked =>
                  rw [runListLoop_congr
                    (fun q r2 hq hq2 => hagree itemType q r2 hq hq2) _ _ _
                    hloop (fun h => PResult.noConfusion h)]
                  rw [hloop] at hh
                  exact hh
              | ok c =>
                  rw [runListLoop_congr
                    (fun q r2 hq hq2 => hagree itemType q r2 hq hq2) _ _ _
                    hloop (fun h => PResult.noConfusion h)]
                  rw [hloop] at hh
                  exact hh
  · -- Compound: the entry loop runs `recur` versus `recurB`
    cases hc : runCompoundLoop data recur loopFuel pos [] with
    | outOfFuel =>
        rw [hc] at hh
        dsimp only [PResult.bind] at hh
        exact absurd hh.symm hne
    | err e =>
        rw [runCompoundLoop_congr hagree loopFuel loopFuelB pos [] _ hfuel hc
          (fun h => PResult.noConfusion h)]
        rw [hc] at hh
        exact hh
    | panicked =>
        rw [runCompoundLoop_congr hagree loopFuel loopFuelB pos [] _ hfuel hc
          (fun h => PResult.noConfusion h)]
        rw [hc] at hh
        exact hh
    | ok c =>
        rw [runCompoundLoop_congr hagree loopFuel loopFuelB pos [] _ hfuel hc
          (fun h => PResult.noConfusion h)]
        rw [hc] at hh
        exact hh
  · exact hh
  · exact hh
  · exact hh

theorem parsePayload_stable (host : Endian) (data : List Nat) :
    ∀ f fB tag pos r, f ≤ fB →
      parsePayload host data f tag pos = r → r ≠ .outOfFuel →
      parsePayload host data fB tag pos = r := by
  intro f
  induction f with
  | zero =>
      intro fB tag pos r _ hh hne
      exact absurd hh.symm hne
  | succ g ih =>
      intro fB tag pos r hf hh hne
      obtain ⟨gB, rfl⟩ : ∃ h, fB = h + 1 := ⟨fB - 1, by omega⟩
      rw [parsePayload] at hh ⊢
      exact payloadStep_congr
        (fun tg q r2 h1 h2 => ih gB tg q r2 (by omega) h1 h2)
        (by omega) tag pos r hh hne

/-- C10: `parse_payload` (and hence `parse`) terminates on every finite
input buffer: in the fuel embedding, any fuel of at least
`2 * (remaining bytes) + 2` — linear in the buffer length, reflecting that
List and Compound consume header bytes before recursing while the
zero-byte End payload never recurses — never exhausts, and the result is
independent of the fuel, so the unbounded Rust recursion it models reaches
the same result in finitely many steps bounded by the buffer length. -/
theorem c10_parse_payload_terminates {host : Endian} {data : List Nat}
    (tag pos f : Nat) (hpos : pos ≤ data.length)
    (hf : 2 * (data.length - pos) + 2 ≤ f) :
    parsePayload host data f tag pos ≠ .outOfFuel ∧
    parsePayload host data f tag pos =
      parsePayload host data (enoughFuel data) tag pos := by
  have h1 : parsePayload host data f tag pos ≠ .outOfFuel :=
    parsePayload_ne_oof host data f tag pos hpos hf
  have h2 : parsePayload host data (enoughFuel data) tag pos ≠ .outOfFuel :=
    parsePayload_ne_oof host data _ tag pos hpos (by unfold enoughFuel; omega)
  have hmax1 := parsePayload_stable host data f (max f (enoughFuel data))
    tag pos _ (le_max_left _ _) rfl h1
  have hmax2 := parsePayload_stable host data (enoughFuel data)
    (max f (enoughFuel data)) tag pos _ (le_max_right _ _) rfl h2
  exact ⟨h1, hmax1.symm.trans hmax2⟩

/-- Witness for C10 at a concrete input: fuel 100 and the canonical fuel
agree on the scenario buffer. -/
theorem c10_witness :
    parsePayload .big scenarioInt42 100 10 3 ≠ .outOfFuel ∧
    parsePayload .big scenarioInt42 100 10 3 =
      parsePayload .big scenarioInt42 (enoughFuel scenarioInt42) 10 3 :=
  c10_parse_payload_terminates 10 3 100 (by decide) (by decide)

/-! ## Truncation: reads and parses over a truncated buffer either agree
with the full run or fail with `UnexpectedEndOfData` -/

theorem length_take_of_le {data : List Nat} {m : Nat} (h : m ≤ data.length) :
    (data.take m).length = m := by
  rw [List.length_take]
  omega

theorem take_window {data : List Nat} {m pos k : Nat} (h : pos + k ≤ m) :
    ((data.take m).drop pos).take k = (data.drop pos).take k := by
  rw [List.drop_take, List.take_take, Nat.min_eq_left (by omega)]

theorem getD_take {data : List Nat} {pos m : Nat} (h : pos < m) :
    (data.take m).getD pos 0 = data.getD pos 0 := by
  simp only [List.getD_eq_getElem?_getD, List.getElem?_take, if_pos h]

theorem readU8_agree {data : List Nat} {pos v p m : Nat}
    (hh : readU8 data pos = .ok (v, p)) (hm : p ≤ m) (hmL : m ≤ data.length) :
    readU8 (data.take m) pos = .ok (v, p) := by
  obtain ⟨h1, rfl, rfl⟩ := readU8_eq_ok.mp hh
  refine readU8_eq_ok.mpr ⟨by rw [length_take_of_le hmL]; omega, ?_, rfl⟩
  rw [getD_take (by omega)]

theorem readU8_fail {data : List Nat} {pos m : Nat} (hm : m < pos + 1)
    (hmL : m ≤ data.length) :
    readU8 (data.take m) pos = .err .unexpectedEndOfData := by
  unfold readU8
  rw [if_pos]
  rw [length_take_of_le hmL]
  omega

theorem readU16_agree {data : List Nat} {pos v p m : Nat}
    (hh : readU16 data pos = .ok (v, p)) (hm : p ≤ m) (hmL : m ≤ data.length) :
    readU16 (data.take m) pos = .ok (v, p) := by
  obtain ⟨h1, rfl, rfl⟩ := readU16_eq_ok.mp hh
  refine readU16_eq_ok.mpr ⟨by rw [length_take_of_le hmL]; omega, ?_, rfl⟩
  rw [take_window (by omega)]

theorem readU16_fail {data : List Nat} {pos m : Nat} (hm : m < pos + 2)
    (hmL : m ≤ data.length) :
    readU16 (data.take m) pos = .err .unexpectedEndOfData := by
  unfold readU16
  rw [if_pos]
  rw [length_take_of_le hmL]
  omega

theorem readU32_agree {data : List Nat} {pos v p m : Nat}
    (hh : readU32 data pos = .ok (v, p)) (hm : p ≤ m) (hmL : m ≤ data.length) :
    readU32 (data.take m) pos = .ok (v, p) := by
  obtain ⟨h1, rfl, rfl⟩ := readU32_eq_ok.mp hh
  refine readU32_eq_ok.mpr ⟨by rw [length_take_of_le hmL]; omega, ?_, rfl⟩
  rw [take_window (by omega)]

theorem readU32_fail {data : List Nat} {pos m : Nat} (hm : m < pos + 4)
    (hmL : m ≤ data.length) :
    readU32 (data.take m) pos = .err .unexpectedEndOfData := by
  unfold readU32
  rw [if_pos]
  rw [length_take_of_le hmL]
  omega

theorem readU64_agree {data : List Nat} {pos v p m : Nat}
    (hh : readU64 data pos = .ok (v, p)) (hm : p ≤ m) (hmL : m ≤ data.length) :
    readU64 (data.take m) pos = .ok (v, p) := by
  obtain ⟨h1, rfl, rfl⟩ := readU64_eq_ok.mp hh
  refine readU64_eq_ok.mpr ⟨by rw [length_take_of_le hmL]; omega, ?_, rfl⟩
  rw [take_window (by omega)]

theorem readU64_fail {data : List Nat} {pos m : Nat} (hm : m < pos + 8)
    (hmL : m ≤ data.length) :
    readU64 (data.take m) pos = .err .unexpectedEndOfData := by
  unfold readU64
  rw [if_pos]
  rw [length_take_of_le hmL]
  omega

theorem readI8_agree {data : List Nat} {pos m : Nat} {v : Int} {p : Nat}
    (hh : readI8 data pos = .ok (v, p)) (hm : p ≤ m) (hmL : m ≤ data.length) :
    readI8 (data.take m) pos = .ok (v, p) := by
  obtain ⟨h1, rfl, rfl⟩ := readI8_eq_ok.mp hh
  refine readI8_eq_ok.mpr ⟨by rw [length_take_of_le hmL]; omega, ?_, rfl⟩
  rw [getD_take (by omega)]

theorem readI16_agree {data : List Nat} {pos m : Nat} {v : Int} {p : Nat}
    (hh : readI16 data pos = .ok (v, p)) (hm : p ≤ m) (hmL : m ≤ data.length) :
    readI16 (data.take m) pos = .ok (v, p) := by
  obtain ⟨h1, rfl, rfl⟩ := readI16_eq_ok.mp hh
  refine readI16_eq_ok.mpr ⟨by rw [length_take_of_le hmL]; omega, ?_, rfl⟩
  rw [take_window (by omega)]

theorem readI32_agree {data : List Nat} {pos m : Nat} {v : Int} {p : Nat}
    (hh : readI32 data pos = .ok (v, p)) (hm : p ≤ m) (hmL : m ≤ data.length) :
    readI32 (data.take m) pos = .ok (v, p) := by
  obtain ⟨h1, rfl, rfl⟩ := readI32_eq_ok.mp hh
  refine readI32_eq_ok.mpr ⟨by rw [length_take_of_le hmL]; omega, ?_, rfl⟩
  rw [take_window (by omega)]

theorem readI64_agree {data : List Nat} {pos m : Nat} {v : Int} {p : Nat}
    (hh : readI64 data pos = .ok (v, p)) (hm : p ≤ m) (hmL : m ≤ data.length) :
    readI64 (data.take m) pos = .ok (v, p) := by
  obtain ⟨h1, rfl, rfl⟩ := readI64_eq_ok.mp hh
  refine readI64_eq_ok.mpr ⟨by rw [length_take_of_le hmL]; omega, ?_, rfl⟩
  rw [take_window (by omega)]

theorem readI8_fail {data : List Nat} {pos m : Nat} (hm : m < pos + 1)
    (hmL : m ≤ data.length) :
    readI8 (data.take m) pos = .err .unexpectedEndOfData := by
  unfold readI8
  rw [readU8_fail hm hmL]
  rfl

theorem readI16_fail {data : List Nat} {pos m : Nat} (hm : m < pos + 2)
    (hmL : m ≤ data.length) :
    readI16 (data.take m) pos = .err .unexpectedEndOfData := by
  unfold readI16
  rw [readU16_fail hm hmL]
  rfl

theorem readI32_fail {data : List Nat} {pos m : Nat} (hm : m < pos + 4)
    (hmL : m ≤ data.length) :
    readI32 (data.take m) pos = .err .unexpectedEndOfData := by
  unfold readI32
  rw [readU32_fail hm hmL]
  rfl

theorem readI64_fail {data : List Nat} {pos m : Nat} (hm : m < pos + 8)
    (hmL : m ≤ data.length) :
    readI64 (data.take m) pos = .err .unexpectedEndOfData := by
  unfold readI64
  rw [readU64_fail hm hmL]
  rfl

theorem parseString_agree {data : List Nat} {pos m : Nat} {s : List Nat}
    {p : Nat} (hh : parseString data pos = .ok (s, p)) (hm : p ≤ m)
    (hmL : m ≤ data.length) :
    parseString (data.take m) pos = .ok (s, p) := by
  obtain ⟨h1, h2, rfl, rfl⟩ := parseString_eq_ok.mp hh
  refine parseString_eq_ok.mpr ?_
  rw [length_take_of_le hmL, take_window (show pos + 2 ≤ m by omega)]
  exact ⟨by omega, by omega, by rw [take_window (by omega)], rfl⟩

theorem parseString_fail {data : List Nat} {pos m : Nat} {s : List Nat}
    {p : Nat} (hh : parseString data pos = .ok (s, p)) (_hlo : pos ≤ m)
    (hm : m < p) (hmL : m ≤ data.length) :
    parseString (data.take m) pos = .err .unexpectedEndOfData := by
  obtain ⟨h1, h2, rfl, rfl⟩ := parseString_eq_ok.mp hh
  by_cases hcut : m < pos + 2
  · unfold parseString
    rw [readU16_fail hcut hmL]
    rfl
  · unfold parseString
    rw [readU16_agree (readU16_eq_ok.mpr ⟨h1, rfl, rfl⟩) (by omega) hmL]
    dsimp only [PResult.bind]
    rw [if_pos]
    rw [length_take_of_le hmL]
    omega

theorem takeByteView_agree {data : List Nat} {pos len m : Nat}
    {bs : List Nat} {p : Nat} (hL : data.length ≤ isizeMax)
    (hlen : len < usizeMod) (hh : takeByteView data pos len = .ok (bs, p))
    (hm : p ≤ m) (hmL : m ≤ data.length) :
    takeByteView (data.take m) pos len = .ok (bs, p) := by
  obtain ⟨h1, rfl, rfl⟩ := (takeByteView_eq_ok hL hlen).mp hh
  refine (takeByteView_eq_ok (by rw [length_take_of_le hmL]; unfold isizeMax at *; omega)
    hlen).mpr ⟨by rw [length_take_of_le hmL]; omega, ?_, rfl⟩
  rw [take_window (by omega)]

theorem takeByteView_fail {data : List Nat} {pos len m : Nat}
    {bs : List Nat} {p : Nat} (hL : data.length ≤ isizeMax)
    (hlen : len < usizeMod) (hh : takeByteView data pos len = .ok (bs, p))
    (hm : m < p) (hmL : m ≤ data.length) :
    takeByteView (data.take m) pos len = .err .unexpectedEndOfData := by
  obtain ⟨h1, rfl, rfl⟩ := (takeByteView_eq_ok hL hlen).mp hh
  unfold isizeMax at hL
  unfold takeByteView usizeAdd usizeMod
  have hb : (pos + len) % 2 ^ 64 = pos + len := by omega
  dsimp only
  rw [hb, if_pos]
  rw [length_take_of_le hmL]
  omega

theorem readI32Array_agree {host : Endian} {data : List Nat}
    {pos len m : Nat} {xs : List Int} {p : Nat} (hL : data.length ≤ isizeMax)
    (hrange : I32UsizeRange len)
    (hh : readI32Array host data pos len = .ok (xs, p)) (hm : p ≤ m)
    (hmL : m ≤ data.length) :
    readI32Array host (data.take m) pos len = .ok (xs, p) := by
  obtain ⟨h1, h2, rfl, rfl⟩ := (readI32Array_eq_ok hL hrange).mp hh
  refine (readI32Array_eq_ok (by rw [length_take_of_le hmL]; unfold isizeMax at *; omega)
    hrange).mpr ⟨h1, by rw [length_take_of_le hmL]; omega, ?_, rfl⟩
  refine List.map_congr_left (fun i hi => ?_)
  rw [List.mem_range] at hi
  rw [take_window (by omega)]

theorem readI32Array_fail {host : Endian} {data : List Nat}
    {pos len m : Nat} {xs : List Int} {p : Nat} (hL : data.length ≤ isizeMax)
    (hrange : I32UsizeRange len)
    (hh : readI32Array host data pos len = .ok (xs, p)) (hm : m < p)
    (hmL : m ≤ data.length) :
    readI32Array host (data.take m) pos len = .err .unexpectedEndOfData := by
  obtain ⟨h1, h2, rfl, rfl⟩ := (readI32Array_eq_ok hL hrange).mp hh
  unfold isizeMax at hL
  unfold readI32Array usizeAdd usizeMul usizeMod
  have hb : len * 4 % 2 ^ 64 = len * 4 := by omega
  have hb2 : (pos + len * 4) % 2 ^ 64 = pos + len * 4 := by omega
  dsimp only
  rw [hb, hb2, if_pos]
  rw [length_take_of_le hmL]
  omega

theorem readI64Array_agree {host : Endian} {data : List Nat}
    {pos len m : Nat} {xs : List Int} {p : Nat} (hL : data.length ≤ isizeMax)
    (hrange : I32UsizeRange len)
    (hh : readI64Array host data pos len = .ok (xs, p)) (hm : p ≤ m)
    (hmL : m ≤ data.length) :
    readI64Array host (data.take m) pos len = .ok (xs, p) := by
  obtain ⟨h1, h2, rfl, rfl⟩ := (readI64Array_eq_ok hL hrange).mp hh
  refine (readI64Array_eq_ok (by rw [length_take_of_le hmL]; unfold isizeMax at *; omega)
    hrange).mpr ⟨h1, by rw [length_take_of_le hmL]; omega, ?_, rfl⟩
  refine List.map_congr_left (fun i hi => ?_)
  rw [List.mem_range] at hi
  rw [take_window (by omega)]

theorem readI64Array_fail {host : Endian} {data : List Nat}
    {pos len m : Nat} {xs : List Int} {p : Nat} (hL : data.length ≤ isizeMax)
    (hrange : I32UsizeRange len)
    (hh : readI64Array host data pos len = .ok (xs, p)) (hm : m < p)
    (hmL : m ≤ data.length) :
    readI64Array host (data.take m) pos len = .err .unexpectedEndOfData := by
  obtain ⟨h1, h2, rfl, rfl⟩ := (readI64Array_eq_ok hL hrange).mp hh
  unfold isizeMax at hL
  unfold readI64Array usizeAdd usizeMul usizeMod
  have hb : len * 8 % 2 ^ 64 = len * 8 := by omega
  have hb2 : (pos + len * 8) % 2 ^ 64 = pos + len * 8 := by omega
  dsimp only
  rw [hb, hb2, if_pos]
  rw [length_take_of_le hmL]
  omega

theorem window_word_lt {data : List Nat} (hBytes : ∀ b ∈ data, b < 256)
    (pos k : Nat) : beWord ((data.drop pos).take k) < 256 ^ k := by
  have h := beWord_lt ((data.drop pos).take k)
    (fun b hb => hBytes b (List.mem_of_mem_drop (List.mem_of_mem_take hb)))
  calc beWord ((data.drop pos).take k)
      < 256 ^ ((data.drop pos).take k).length := h
    _ ≤ 256 ^ k := by
        apply Nat.pow_le_pow_right (by norm_num)
        rw [List.length_take]
        omega

theorem runListLoop_truncate {L m : Nat}
    {step stepT : Nat → PResult (NbtTag × Nat)}
    (hmono : ∀ q t p, q ≤ L → step q = .ok (t, p) → q ≤ p ∧ p ≤ L)
    (htr : ∀ q t p, q ≤ L → step q = .ok (t, p) →
      (p ≤ m → stepT q = .ok (t, p)) ∧
      (q ≤ m → m < p → stepT q = .err .unexpectedEndOfData)) :
    ∀ c pos ts p, pos ≤ L → runListLoop step c pos = .ok (ts, p) →
      (p ≤ m → runListLoop stepT c pos = .ok (ts, p)) ∧
      (pos ≤ m → m < p → runListLoop stepT c pos =
        .err .unexpectedEndOfData) := by
  intro c
  induction c with
  | zero =>
      intro pos ts p hpos hh
      unfold runListLoop at hh
      cases hh
      exact ⟨fun _ => rfl, fun h1 h2 => by omega⟩
  | succ c ih =>
      intro pos ts p hpos hh
      unfold runListLoop at hh
      obtain ⟨⟨t1, p1⟩, h1, h2⟩ := PResult.bind_eq_ok.mp hh
      obtain ⟨⟨ts2, p2⟩, h3, h4⟩ := PResult.bind_eq_ok.mp h2
      cases h4
      obtain ⟨hq1, hq2⟩ := hmono pos t1 p1 hpos h1
      obtain ⟨hr1, hr2⟩ := runListLoop_mono hmono c p1 _ _ hq2 h3
      constructor
      · intro hpm
        have hstep := (htr pos t1 p1 hpos h1).1 (by omega)
        have hrest := (ih p1 _ _ hq2 h3).1 hpm
        unfold runListLoop
        rw [hstep]
        dsimp only [PResult.bind]
        rw [hrest]
      · intro h1m h2m
        by_cases hc : m < p1
        · have hstep := (htr pos t1 p1 hpos h1).2 h1m hc
          unfold runListLoop
          rw [hstep]
          rfl
        · have hstep := (htr pos t1 p1 hpos h1).1 (by omega)
          have hrest := (ih p1 _ _ hq2 h3).2 (by omega) h2m
          unfold runListLoop
          rw [hstep]
          dsimp only [PResult.bind]
          rw [hrest]

theorem runCompoundLoop_truncate {data : List Nat} {m : Nat}
    {step stepT : Nat → Nat → PResult (NbtTag × Nat)}
    (hmL : m ≤ data.length)
    (hmono : ∀ tg q t p, q ≤ data.length → step tg q = .ok (t, p) →
      q ≤ p ∧ p ≤ data.length)
    (htr : ∀ tg q t p, q ≤ data.length → step tg q = .ok (t, p) →
      (p ≤ m → stepT tg q = .ok (t, p)) ∧
      (q ≤ m → m < p → stepT tg q = .err .unexpectedEndOfData)) :
    ∀ g pos acc es p, runCompoundLoop data step g pos acc = .ok (es, p) →
      (p ≤ m → runCompoundLoop (data.take m) stepT g pos acc = .ok (es, p)) ∧
      (pos ≤ m → m < p → runCompoundLoop (data.take m) stepT g pos acc =
        .err .unexpectedEndOfData) := by
  intro g
  induction g with
  | zero =>
      intro pos acc es p hh
      exact PResult.noConfusion hh
  | succ g ih =>
      intro pos acc es p hh
      unfold runCompoundLoop at hh
      obtain ⟨⟨tg, p1⟩, h1, h2⟩ := PResult.bind_eq_ok.mp hh
      obtain ⟨hlt, hv, rfl⟩ := readU8_eq_ok.mp h1
      dsimp only [PResult.bind] at h2
      by_cases htg : tg = 0
      · rw [if_pos htg] at h2
        cases h2
        constructor
        · intro hpm
          unfold runCompoundLoop
          rw [readU8_agree h1 hpm hmL]
          dsimp only [PResult.bind]
          rw [if_pos htg]
        · intro h1m h2m
          unfold runCompoundLoop
          rw [readU8_fail (by omega) hmL]
          rfl
      · rw [if_neg htg] at h2
        obtain ⟨⟨name, p2⟩, h3, h4⟩ := PResult.bind_eq_ok.mp h2
        obtain ⟨-, hp2L, -, hp2⟩ := parseString_eq_ok.mp h3
        obtain ⟨⟨t1, p3⟩, h5, h6⟩ := PResult.bind_eq_ok.mp h4
        obtain ⟨hq1, hq2⟩ := hmono tg p2 t1 p3 (by omega) h5
        obtain ⟨hr1, hr2⟩ := runCompoundLoop_mono hmono g p3 _ es p h6
        constructor
        · intro hpm
          unfold runCompoundLoop
          rw [readU8_agree h1 (by omega) hmL]
          dsimp only [PResult.bind]
          rw [if_neg htg]
          rw [parseString_agree h3 (by omega) hmL]
          dsimp only [PResult.bind]
          rw [(htr tg p2 t1 p3 (by omega) h5).1 (by omega)]
          dsimp only [PResult.bind]
          exact (ih p3 _ es p h6).1 hpm
        · intro h1m h2m
          by_cases hc1 : m < pos + 1
          · unfold runCompoundLoop
            rw [readU8_fail (by omega) hmL]
            rfl
          · by_cases hc2 : m < p2
            · unfold runCompoundLoop
              rw [readU8_agree h1 (by omega) hmL]
              dsimp only [PResult.bind]
              rw [if_neg htg]
              rw [parseString_fail h3 (by omega) (by omega) hmL]
            · by_cases hc3 : m < p3
              · unfold runCompoundLoop
                rw [readU8_agree h1 (by omega) hmL]
                dsimp only [PResult.bind]
                rw [if_neg htg]
                rw [parseString_agree h3 (by omega) hmL]
                dsimp only [PResult.bind]
                rw [(htr tg p2 t1 p3 (by omega) h5).2 (by omega) hc3]
              · unfold runCompoundLoop
                rw [readU8_agree h1 (by omega) hmL]
                dsimp only [PResult.bind]
                rw [if_neg htg]
                rw [parseString_agree h3 (by omega) hmL]
                dsimp only [PResult.bind]
                rw [(htr tg p2 t1 p3 (by omega) h5).1 (by omega)]
                dsimp only [PResult.bind]
                exact (ih p3 _ es p h6).2 (by omega) h2m

theorem PResult.bind_eq_err_of {α β : Type} {r : PResult α}
    {f : α → PResult β} {e : NBTError} (h : r = .err e) :
    r.bind f = .err e := by
  rw [h]
  rfl

theorem PResult.bind_ok_then {α β : Type} {r : PResult α} {a : α}
    {f : α → PResult β} {s : PResult β} (h : r = .ok a) (h2 : f a = s) :
    r.bind f = s := by
  rw [h]
  exact h2

theorem parsePayload_truncate {host : Endian} {data : List Nat}
    (hL : data.length ≤ isizeMax) (hBytes : ∀ b ∈ data, b < 256)
    {m : Nat} (hmL : m ≤ data.length) :
    ∀ f tag pos t p, pos ≤ data.length →
      parsePayload host data f tag pos = .ok (t, p) →
      (p ≤ m → parsePayload host (data.take m) f tag pos = .ok (t, p)) ∧
      (pos ≤ m → m < p → parsePayload host (data.take m) f tag pos =
        .err .unexpectedEndOfData) := by
  intro f
  induction f with
  | zero =>
      intro tag pos t p _ hh
      exact PResult.noConfusion hh
  | succ g ih =>
      intro tag pos t p hpos hh
      rw [parsePayload] at hh
      rcases tag with _|_|_|_|_|_|_|_|_|_|_|_|_|n <;> unfold payloadStep at hh
      · -- End
        cases hh
        exact ⟨fun _ => rfl, fun h1 h2 => by omega⟩
      · -- Byte
        obtain ⟨⟨v, q⟩, hr, hv⟩ := PResult.bind_eq_ok.mp hh
        obtain ⟨hb1, -, hq⟩ := readI8_eq_ok.mp hr
        cases hv
        exact ⟨fun hpm => PResult.bind_ok_then (readI8_agree hr hpm hmL) rfl,
          fun h1m h2m =>
            PResult.bind_eq_err_of (readI8_fail (by omega) hmL)⟩
      · -- Short
        obtain ⟨⟨v, q⟩, hr, hv⟩ := PResult.bind_eq_ok.mp hh
        obtain ⟨hb1, -, hq⟩ := readI16_eq_ok.mp hr
        cases hv
        exact ⟨fun hpm => PResult.bind_ok_then (readI16_agree hr hpm hmL) rfl,
          fun h1m h2m =>
            PResult.bind_eq_err_of (readI16_fail (by omega) hmL)⟩
      · -- Int
        obtain ⟨⟨v, q⟩, hr, hv⟩ := PResult.bind_eq_ok.mp hh
        obtain ⟨hb1, -, hq⟩ := readI32_eq_ok.mp hr
        cases hv
        exact ⟨fun hpm => PResult.bind_ok_then (readI32_agree hr hpm hmL) rfl,
          fun h1m h2m =>
            PResult.bind_eq_err_of (readI32_fail (by omega) hmL)⟩
      · -- Long
        obtain ⟨⟨v, q⟩, hr, hv⟩ := PResult.bind_eq_ok.mp hh
        obtain ⟨hb1, -, hq⟩ := readI64_eq_ok.mp hr
        cases hv
        exact ⟨fun hpm => PResult.bind_ok_then (readI64_agree hr hpm hmL) rfl,
          fun h1m h2m =>
            PResult.bind_eq_err_of (readI64_fail (by omega) hmL)⟩
      · -- Float
        obtain ⟨⟨v, q⟩, hr, hv⟩ := PResult.bind_eq_ok.mp hh
        obtain ⟨hb1, -, hq⟩ := readU32_eq_ok.mp hr
        cases hv
        exact ⟨fun hpm => PResult.bind_ok_then (readU32_agree hr hpm hmL) rfl,
          fun h1m h2m =>
            PResult.bind_eq_err_of (readU32_fail (by omega) hmL)⟩
      · -- Double
        obtain ⟨⟨v, q⟩, hr, hv⟩ := PResult.bind_eq_ok.mp hh
        obtain ⟨hb1, -, hq⟩ := readU64_eq_ok.mp hr
        cases hv
        exact ⟨fun hpm => PResult.bind_ok_then (readU64_agree hr hpm hmL) rfl,
          fun h1m h2m =>
            PResult.bind_eq_err_of (readU64_fail (by omega) hmL)⟩
      · -- ByteArray
        obtain ⟨⟨v, q⟩, hr, hv⟩ := PResult.bind_eq_ok.mp hh
        obtain ⟨hb1, hveq, hq⟩ := readI32_eq_ok.mp hr
        obtain ⟨⟨bs, q2⟩, hbv, hv2⟩ := PResult.bind_eq_ok.mp hv
        cases hv2
        have hlen := i32AsUsize_lt v
        obtain ⟨hs1, hs2⟩ := takeByteView_bounds hbv
        constructor
        · intro hpm
          exact PResult.bind_ok_then (readI32_agree hr (by omega) hmL)
            (PResult.bind_ok_then (takeByteView_agree hL hlen hbv hpm hmL) rfl)
        · intro h1m h2m
          by_cases hc : m < pos + 4
          · exact PResult.bind_eq_err_of (readI32_fail (by omega) hmL)
          · exact PResult.bind_ok_then (readI32_agree hr (by omega) hmL)
              (PResult.bind_eq_err_of
                (takeByteView_fail hL hlen hbv (by omega) hmL))
      · -- String
        obtain ⟨⟨s, q⟩, hr, hv⟩ := PResult.bind_eq_ok.mp hh
        obtain ⟨-, hq2, -, hq⟩ := parseString_eq_ok.mp hr
        cases hv
        exact ⟨fun hpm =>
            PResult.bind_ok_then (parseString_agree hr hpm hmL) rfl,
          fun h1m h2m =>
            PResult.bind_eq_err_of (parseString_fail hr h1m h2m hmL)⟩
      · -- List
        obtain ⟨⟨itemType, p1⟩, hr, hv⟩ := PResult.bind_eq_ok.mp hh
        obtain ⟨hlt, -, hp1⟩ := readU8_eq_ok.mp hr
        obtain ⟨⟨v, p2⟩, hr2, hv2⟩ := PResult.bind_eq_ok.mp hv
        obtain ⟨hi32, -, hp2⟩ := readI32_eq_ok.mp hr2
        dsimp only at hv2
        by_cases hlen : i32AsUsize v > isizeMax
        · rw [if_pos hlen] at hv2
          exact PResult.noConfusion hv2
        · rw [if_neg hlen] at hv2
          obtain ⟨⟨ts, q⟩, hloop, hv3⟩ := PResult.bind_eq_ok.mp hv2
          cases hv3
          have hloopmono := runListLoop_mono
            (fun q1 t1 q2 hq1 hc =>
              parsePayload_mono g itemType q1 t1 q2 hq1 hc)
            _ _ _ _ (show p2 ≤ data.length by omega) hloop
          have htrunc := runListLoop_truncate
            (fun q1 t1 q2 hq1 hc =>
              parsePayload_mono g itemType q1 t1 q2 hq1 hc)
            (fun q1 t1 q2 hq1 hc => ih itemType q1 t1 q2 hq1 hc)
            _ _ _ _ (show p2 ≤ data.length by omega) hloop
          constructor
          · intro hpm
            exact PResult.bind_ok_then (readU8_agree hr (by omega) hmL)
              (PResult.bind_ok_then (readI32_agree hr2 (by omega) hmL)
                ((if_neg hlen).trans
                  (PResult.bind_ok_then (htrunc.1 hpm) rfl)))
          · intro h1m h2m
            by_cases hc1 : m < pos + 1
            · exact PResult.bind_eq_err_of (readU8_fail (by omega) hmL)
            · by_cases hc2 : m < p2
              · exact PResult.bind_ok_then (readU8_agree hr (by omega) hmL)
                  (PResult.bind_eq_err_of (readI32_fail (by omega) hmL))
              · exact PResult.bind_ok_then (readU8_agree hr (by omega) hmL)
                  (PResult.bind_ok_then (readI32_agree hr2 (by omega) hmL)
                    ((if_neg hlen).trans
                      (PResult.bind_eq_err_of
                        (htrunc.2 (by omega) h2m))))
      · -- Compound
        obtain ⟨⟨es, q⟩, hloop, hv⟩ := PResult.bind_eq_ok.mp hh
        cases hv
        have htrunc := runCompoundLoop_truncate hmL
          (fun tg q1 t1 q2 hq1 hc => parsePayload_mono g tg q1 t1 q2 hq1 hc)
          (fun tg q1 t1 q2 hq1 hc => ih tg q1 t1 q2 hq1 hc)
          g pos [] _ _ hloop
        exact ⟨fun hpm => PResult.bind_ok_then (htrunc.1 hpm) rfl,
          fun h1m h2m => PResult.bind_eq_err_of (htrunc.2 h1m h2m)⟩
      · -- IntArray
        obtain ⟨⟨v, q⟩, hr, hv⟩ := PResult.bind_eq_ok.mp hh
        obtain ⟨hb1, hveq, hq⟩ := readI32_eq_ok.mp hr
        obtain ⟨⟨xs, q2⟩, ha, hv2⟩ := PResult.bind_eq_ok.mp hv
        cases hv2
        have hw : beWord ((data.drop pos).take 4) < 2 ^ 32 := by
          have := window_word_lt hBytes pos 4
          omega
        have hrange : I32UsizeRange (i32AsUsize v) := by
          rw [hveq]
          exact i32AsUsize_range hw
        obtain ⟨hs1, hs2⟩ := readI32Array_bounds ha
        constructor
        · intro hpm
          exact PResult.bind_ok_then (readI32_agree hr (by omega) hmL)
            (PResult.bind_ok_then (readI32Array_agree hL hrange ha hpm hmL)
              rfl)
        · intro h1m h2m
          by_cases hc : m < pos + 4
          · exact PResult.bind_eq_err_of (readI32_fail (by omega) hmL)
          · exact PResult.bind_ok_then (readI32_agree hr (by omega) hmL)
              (PResult.bind_eq_err_of
                (readI32Array_fail hL hrange ha (by omega) hmL))
      · -- LongArray
        obtain ⟨⟨v, q⟩, hr, hv⟩ := PResult.bind_eq_ok.mp hh
        obtain ⟨hb1, hveq, hq⟩ := readI32_eq_ok.mp hr
        obtain ⟨⟨xs, q2⟩, ha, hv2⟩ := PResult.bind_eq_ok.mp hv
        cases hv2
        have hw : beWord ((data.drop pos).take 4) < 2 ^ 32 := by
          have := window_word_lt hBytes pos 4
          omega
        have hrange : I32UsizeRange (i32AsUsize v) := by
          rw [hveq]
          exact i32AsUsize_range hw
        obtain ⟨hs1, hs2⟩ := readI64Array_bounds ha
        constructor
        · intro hpm
          exact PResult.bind_ok_then (readI32_agree hr (by omega) hmL)
            (PResult.bind_ok_then (readI64Array_agree hL hrange ha hpm hmL)
              rfl)
        · intro h1m h2m
          by_cases hc : m < pos + 4
          · exact PResult.bind_eq_err_of (readI32_fail (by omega) hmL)
          · exact PResult.bind_ok_then (readI32_agree hr (by omega) hmL)
              (PResult.bind_eq_err_of
                (readI64Array_fail hL hrange ha (by omega) hmL))
      · -- unknown discriminant: the run panicked, never ok
        exact PResult.noConfusion hh

theorem isCompressed_take_eq_false {data : List Nat} {m : Nat}
    (h : isCompressed data = false) : isCompressed (data.take m) = false := by
  rcases data with _ | ⟨b0, _ | ⟨b1, rest⟩⟩
  · simp [isCompressed]
  · rcases m with _ | m <;> simp [isCompressed]
  · rcases m with _ | _ | m
    · simp [isCompressed]
    · simp [isCompressed]
    · simpa [isCompressed] using h

/-- Truncating a byte stream that parses successfully and is consumed in
full yields `UnexpectedEndOfData` at every strict prefix. -/
theorem parseRoot_truncate {host : Endian} {data : List Nat}
    {nt : List Nat × NbtTag} {n : Nat} (hL : data.length ≤ isizeMax)
    (hBytes : ∀ b ∈ data, b < 256) (hh : parseRoot host data = .ok (nt, n))
    (hn : n = data.length) :
    ∀ m, m < n → parse host (data.take m) = .err .unexpectedEndOfData := by
  intro m hm
  unfold parseRoot at hh
  split at hh
  · exact PResult.noConfusion hh
  · rename_i hcomp
    obtain ⟨⟨tagType, p1⟩, hread, hv⟩ := PResult.bind_eq_ok.mp hh
    obtain ⟨h0lt, -, hp1⟩ := readU8_eq_ok.mp hread
    dsimp only at hv
    split at hv
    · exact PResult.noConfusion hv
    · rename_i htag
      have htag10 : tagType = 10 := by omega
      obtain ⟨⟨name, p2⟩, hstr, hv2⟩ := PResult.bind_eq_ok.mp hv
      obtain ⟨-, hp2L, -, hp2⟩ := parseString_eq_ok.mp hstr
      obtain ⟨⟨tt, p3⟩, hpay, hv3⟩ := PResult.bind_eq_ok.mp hv2
      cases hv3
      have hmono := parsePayload_mono (enoughFuel data) tagType p2 tt p3
        (by omega) hpay
      have hmL : m ≤ data.length := by omega
      have hic : isCompressed (data.take m) = false :=
        isCompressed_take_eq_false (Bool.not_eq_true _ |>.mp hcomp)
      have hicProp : ¬ isCompressed (data.take m) = true := by
        rw [hic]
        exact fun h => Bool.noConfusion h
      unfold parse parseRoot
      rw [if_neg hicProp]
      by_cases hc1 : m < 1
      · exact PResult.bind_eq_err_of
          (PResult.bind_eq_err_of (readU8_fail (by omega) hmL))
      · by_cases hc2 : m < p2
        · refine PResult.bind_eq_err_of
            (PResult.bind_ok_then (readU8_agree hread (by omega) hmL) ?_)
          dsimp only
          rw [if_neg (by omega)]
          subst htag10
          exact PResult.bind_eq_err_of
            (parseString_fail hstr (by omega) (by omega) hmL)
        · -- the cut falls inside the payload
          have htr := (parsePayload_truncate hL hBytes hmL (enoughFuel data)
            tagType p2 tt p3 (by omega) hpay).2 (by omega) hm
          have hF1le : enoughFuel (data.take m) ≤ enoughFuel data := by
            unfold enoughFuel
            rw [length_take_of_le hmL]
            omega
          have hne := parsePayload_ne_oof host (data.take m)
            (enoughFuel (data.take m)) tagType p2
            (by rw [length_take_of_le hmL]; omega)
            (by rw [length_take_of_le hmL]; unfold enoughFuel;
                rw [length_take_of_le hmL]; omega)
          have hstable := parsePayload_stable host (data.take m)
            (enoughFuel (data.take m)) (enoughFuel data) tagType p2 _
            hF1le rfl hne
          have : parsePayload host (data.take m) (enoughFuel (data.take m))
              tagType p2 = .err .unexpectedEndOfData :=
            hstable.symm.trans htr
          refine PResult.bind_eq_err_of
            (PResult.bind_ok_then (readU8_agree hread (by omega) hmL) ?_)
          dsimp only
          rw [if_neg (by omega)]
          exact PResult.bind_ok_then (parseString_agree hstr (by omega) hmL)
            (PResult.bind_eq_err_of this)

/-- C4: every fixed-width primitive read (8/16/32/64-bit) first checks
`position + width <= buffer length` and fails with `UnexpectedEndOfData`
when the check fails; in the functional model the cursor is advanced only
by the success branch (the Rust methods mutate `self.pos` only after the
check, so a failed read leaves the position unchanged), and a successful
read advances by exactly the width.  Consequently, truncating a byte
stream that parses successfully and is consumed in full (a real Rust
buffer: length within `isize::MAX`, bytes below 256) at any strict prefix
makes `parse` return `UnexpectedEndOfData`, never an out-of-range
access. -/
theorem c4_fixed_width_reads_and_truncation :
    (∀ (data : List Nat) (pos : Nat), data.length < pos + 1 →
        readU8 data pos = .err .unexpectedEndOfData) ∧
    (∀ (data : List Nat) (pos : Nat), data.length < pos + 2 →
        readU16 data pos = .err .unexpectedEndOfData) ∧
    (∀ (data : List Nat) (pos : Nat), data.length < pos + 4 →
        readU32 data pos = .err .unexpectedEndOfData) ∧
    (∀ (data : List Nat) (pos : Nat), data.length < pos + 8 →
        readU64 data pos = .err .unexpectedEndOfData) ∧
    (∀ (data : List Nat) (pos v p : Nat), readU8 data pos = .ok (v, p) →
        pos + 1 ≤ data.length ∧ p = pos + 1) ∧
    (∀ (data : List Nat) (pos v p : Nat), readU16 data pos = .ok (v, p) →
        pos + 2 ≤ data.length ∧ p = pos + 2) ∧
    (∀ (data : List Nat) (pos v p : Nat), readU32 data pos = .ok (v, p) →
        pos + 4 ≤ data.length ∧ p = pos + 4) ∧
    (∀ (data : List Nat) (pos v p : Nat), readU64 data pos = .ok (v, p) →
        pos + 8 ≤ data.length ∧ p = pos + 8) ∧
    (∀ (host : Endian) (data : List Nat) (nt : List Nat × NbtTag) (n m : Nat),
        data.length ≤ isizeMax → (∀ b ∈ data, b < 256) →
        parseRoot host data = .ok (nt, n) → n = data.length → m < n →
        parse host (data.take m) = .err .unexpectedEndOfData) := by
  refine ⟨?_, ?_, ?_, ?_, ?_, ?_, ?_, ?_, ?_⟩
  · intro data pos h
    unfold readU8
    rw [if_pos (by omega)]
  · intro data pos h
    unfold readU16
    rw [if_pos (by omega)]
  · intro data pos h
    unfold readU32
    rw [if_pos (by omega)]
  · intro data pos h
    unfold readU64
    rw [if_pos (by omega)]
  · intro data pos v p h
    obtain ⟨h1, -, h2⟩ := readU8_eq_ok.mp h
    exact ⟨by omega, h2⟩
  · intro data pos v p h
    obtain ⟨h1, -, h2⟩ := readU16_eq_ok.mp h
    exact ⟨h1, h2⟩
  · intro data pos v p h
    obtain ⟨h1, -, h2⟩ := readU32_eq_ok.mp h
    exact ⟨h1, h2⟩
  · intro data pos v p h
    obtain ⟨h1, -, h2⟩ := readU64_eq_ok.mp h
    exact ⟨h1, h2⟩
  · intro host data nt n m hL hBytes hh hn hm
    exact parseRoot_truncate hL hBytes hh hn m hm

/-- Witness for C4: a too-short single-byte read fails, and the concrete
scenario stream truncated to 5 of its 12 bytes yields
`UnexpectedEndOfData`. -/
theorem c4_witness :
    readU8 [5] 1 = .err .unexpectedEndOfData ∧
    parse .big (scenarioInt42.take 5) = .err .unexpectedEndOfData := by
  constructor
  · exact c4_fixed_width_reads_and_truncation.1 [5] 1 (by decide)
  · exact c4_fixed_width_reads_and_truncation.2.2.2.2.2.2.2.2 .big
      scenarioInt42 ([], .compound [([120], .int 42)]) 12 5 (by decide)
      (by decide) rfl rfl (by decide)

/-! ## An encoder for the binary grammar, defining the well-formed byte
streams of the specification -/

/-- The one-byte tag-type discriminant of each tag variant. -/
def tagId : NbtTag → Nat
  | .endTag => 0
  | .byte _ => 1
  | .short _ => 2
  | .int _ => 3
  | .long _ => 4
  | .float _ => 5
  | .double _ => 6
  | .byteArray _ => 7
  | .string _ => 8
  | .list _ _ => 9
  | .compound _ => 10
  | .intArray _ => 11
  | .longArray _ => 12

/-- Big-endian encoding of `n mod 256^k` on `k` bytes. -/
def beBytes : Nat → Nat → List Nat
  | 0, _ => []
  | k + 1, n => beBytes k (n / 256) ++ [n % 256]

/-- Two's-complement bit pattern of a signed value on `w` bits. -/
def toUnsigned (w : Nat) (v : Int) : Nat := (v % ((2 : Int) ^ w)).toNat

mutual

/-- Binary encoding of a tag's payload, per the grammar table of the
specification. -/
def encodePayload : NbtTag → List Nat
  | .endTag => []
  | .byte v => beBytes 1 (toUnsigned 8 v)
  | .short v => beBytes 2 (toUnsigned 16 v)
  | .int v => beBytes 4 (toUnsigned 32 v)
  | .long v => beBytes 8 (toUnsigned 64 v)
  | .float bits => beBytes 4 bits
  | .double bits => beBytes 8 bits
  | .byteArray bs => beBytes 4 bs.length ++ bs
  | .string s => beBytes 2 s.length ++ s
  | .list et es => et :: (beBytes 4 es.length ++ encodeList es)
  | .compound entries => encodeEntries entries ++ [0]
  | .intArray xs => beBytes 4 xs.length ++ encodeI32s xs
  | .longArray xs => beBytes 4 xs.length ++ encodeI64s xs

/-- Payloads of list elements, in order. -/
def encodeList : List NbtTag → List Nat
  | [] => []
  | t :: ts => encodePayload t ++ encodeList ts

/-- Compound entries: 1-byte type, length-prefixed name, payload, repeated.
The trailing End byte is appended by `encodePayload`. -/
def encodeEntries : List (List Nat × NbtTag) → List Nat
  | [] => []
  | (n, t) :: rest =>
      tagId t :: (beBytes 2 n.length ++ n ++ encodePayload t) ++
        encodeEntries rest

/-- 4-byte big-endian IntArray elements. -/
def encodeI32s : List Int → List Nat
  | [] => []
  | x :: xs => beBytes 4 (toUnsigned 32 x) ++ encodeI32s xs

/-- 8-byte big-endian LongArray elements. -/
def encodeI64s : List Int → List Nat
  | [] => []
  | x :: xs => beBytes 8 (toUnsigned 64 x) ++ encodeI64s xs

end

/-- Well-formedness of a tag tree with respect to the grammar: value ranges
fit their width, declared lengths fit a non-negative `i32`, list elements
match the declared element type, and no compound entry uses the End
discriminant (which would terminate the entry loop early).  Compound entry
lists may contain duplicate names: they encode streams in which the same
name appears twice. -/
inductive WFTag : NbtTag → Prop where
  | endTag : WFTag .endTag
  | byte {v : Int} : -2 ^ 7 ≤ v → v < 2 ^ 7 → WFTag (.byte v)
  | short {v : Int} : -2 ^ 15 ≤ v → v < 2 ^ 15 → WFTag (.short v)
  | int {v : Int} : -2 ^ 31 ≤ v → v < 2 ^ 31 → WFTag (.int v)
  | long {v : Int} : -2 ^ 63 ≤ v → v < 2 ^ 63 → WFTag (.long v)
  | float {bits : Nat} : bits < 2 ^ 32 → WFTag (.float bits)
  | double {bits : Nat} : bits < 2 ^ 64 → WFTag (.double bits)
  | byteArray {bs : List Nat} : bs.length < 2 ^ 31 → WFTag (.byteArray bs)
  | string {s : List Nat} : s.length < 2 ^ 16 → WFTag (.string s)
  | list {et : Nat} {es : List NbtTag} : es.length < 2 ^ 31 →
      (∀ t ∈ es, tagId t = et) → (∀ t ∈ es, WFTag t) → WFTag (.list et es)
  | compound {entries : List (List Nat × NbtTag)} :
      (∀ e ∈ entries, (e : List Nat × NbtTag).1.length < 2 ^ 16) →
      (∀ e ∈ entries, tagId (e : List Nat × NbtTag).2 ≠ 0) →
      (∀ e ∈ entries, WFTag (e : List Nat × NbtTag).2) →
      WFTag (.compound entries)
  | intArray {xs : List Int} : xs.length < 2 ^ 31 →
      (∀ x ∈ xs, -2 ^ 31 ≤ x ∧ x < 2 ^ 31) → WFTag (.intArray xs)
  | longArray {xs : List Int} : xs.length < 2 ^ 31 →
      (∀ x ∈ xs, -2 ^ 63 ≤ x ∧ x < 2 ^ 63) → WFTag (.longArray xs)

mutual

/-- The tree the parser produces from an encoded tag: identical except that
compound entry lists are collapsed through `insertEntry` (`HashMap`
semantics, last write wins). -/
def normalizeTag : NbtTag → NbtTag
  | .list et es => .list et (normalizeList es)
  | .compound entries => .compound (normalizeEntries [] entries)
  | t => t

def normalizeList : List NbtTag → List NbtTag
  | [] => []
  | t :: ts => normalizeTag t :: normalizeList ts

def normalizeEntries (acc : List (List Nat × NbtTag)) :
    List (List Nat × NbtTag) → List (List Nat × NbtTag)
  | [] => acc
  | (n, t) :: rest => normalizeEntries (insertEntry acc n (normalizeTag t)) rest

end

/-- The value of the LAST occurrence of `name` in a raw entry list (stream
order). -/
def lastWritten (entries : List (List Nat × NbtTag)) (name : List Nat) :
    Option NbtTag :=
  match entries with
  | [] => none
  | (n, t) :: rest =>
      match lastWritten rest name with
      | some u => some u
      | none => if n = name then some t else none

theorem beBytes_length (k n : Nat) : (beBytes k n).length = k := by
  induction k generalizing n with
  | zero => rfl
  | succ k ih => simp [beBytes, ih]

theorem beWord_append (xs : List Nat) (x : Nat) :
    beWord (xs ++ [x]) = beWord xs * 256 + x := by
  simp [beWord, List.foldl_append]

theorem beWord_beBytes (k n : Nat) : beWord (beBytes k n) = n % 256 ^ k := by
  induction k generalizing n with
  | zero => simp [beBytes, beWord, Nat.mod_one]
  | succ k ih =>
      rw [beBytes, beWord_append, ih]
      rw [Nat.pow_succ, Nat.mul_comm (256 ^ k) 256, Nat.mod_mul]
      ring

theorem beWord_beBytes_of_lt {k n : Nat} (h : n < 256 ^ k) :
    beWord (beBytes k n) = n := by
  rw [beWord_beBytes, Nat.mod_eq_of_lt h]

theorem toUnsigned_lt (w : Nat) (v : Int) : toUnsigned w v < 2 ^ w := by
  unfold toUnsigned
  have hc2 : ((2 ^ w : Nat) : Int) = (2 : Int) ^ w := by push_cast; ring
  have h1 := Int.emod_lt_of_pos v (show (0:Int) < 2 ^ w by positivity)
  have h2 := Int.emod_nonneg v (show ((2:Int) ^ w) ≠ 0 by positivity)
  omega

theorem toSigned_toUnsigned {w : Nat} (hw : 1 ≤ w) {v : Int}
    (h1 : -(2 ^ (w - 1)) ≤ v) (h2 : v < 2 ^ (w - 1)) :
    toSigned w (toUnsigned w v) = v := by
  unfold toSigned toUnsigned
  have hc1 : ((2 ^ (w - 1) : Nat) : Int) = (2 : Int) ^ (w - 1) := by
    push_cast
    ring
  have hc2 : ((2 ^ w : Nat) : Int) = (2 : Int) ^ w := by push_cast; ring
  have hsplit : (2 : Int) ^ w = 2 ^ (w - 1) * 2 := by
    rw [← pow_succ]
    congr 1
    omega
  have hmodpos : 0 ≤ v % 2 ^ w := Int.emod_nonneg v (by positivity)
  have hmodlt : v % 2 ^ w < 2 ^ w := Int.emod_lt_of_pos v (by positivity)
  by_cases hv : 0 ≤ v
  · have hmod : v % (2 ^ w) = v := Int.emod_eq_of_lt hv (by omega)
    split <;> rename_i hlt <;> omega
  · have hmod : v % (2 ^ w) = v + 2 ^ w := by
      rw [← Int.add_mul_emod_self_left v (2 ^ w) 1, mul_one]
      exact Int.emod_eq_of_lt (by omega) (by omega)
    split <;> rename_i hlt <;> omega

/-! ## Reads at encoded positions -/

theorem window_at {data pre bs rest : List Nat} {pos k : Nat}
    (hdata : data = pre ++ (bs ++ rest)) (hpos : pos = pre.length)
    (hk : bs.length = k) : (data.drop pos).take k = bs := by
  subst hdata hpos
  subst hk
  rw [List.drop_left, List.take_left]

theorem getD_at {data pre rest : List Nat} {b pos : Nat}
    (hdata : data = pre ++ b :: rest) (hpos : pos = pre.length) :
    data.getD pos 0 = b := by
  subst hdata hpos
  simp [List.getD_eq_getElem?_getD,
    List.getElem?_append_right (le_refl pre.length)]

theorem length_at {data pre bs rest : List Nat}
    (hdata : data = pre ++ (bs ++ rest)) :
    data.length = pre.length + bs.length + rest.length := by
  subst hdata
  simp [List.length_append]
  omega

theorem readU8_at {data pre rest : List Nat} {b pos : Nat}
    (hdata : data = pre ++ b :: rest) (hpos : pos = pre.length) :
    readU8 data pos = .ok (b, pos + 1) := by
  refine readU8_eq_ok.mpr ⟨?_, (getD_at hdata hpos).symm, rfl⟩
  subst hdata hpos
  simp [List.length_append]

theorem readU16_at {data pre bs rest : List Nat} {pos : Nat}
    (hdata : data = pre ++ (bs ++ rest)) (hpos : pos = pre.length)
    (hk : bs.length = 2) :
    readU16 data pos = .ok (beWord bs, pos + 2) := by
  refine readU16_eq_ok.mpr ⟨?_, ?_, rfl⟩
  · rw [length_at hdata, hpos]
    omega
  · rw [window_at hdata hpos hk]

theorem readU32_at {data pre bs rest : List Nat} {pos : Nat}
    (hdata : data = pre ++ (bs ++ rest)) (hpos : pos = pre.length)
    (hk : bs.length = 4) :
    readU32 data pos = .ok (beWord bs, pos + 4) := by
  refine readU32_eq_ok.mpr ⟨?_, ?_, rfl⟩
  · rw [length_at hdata, hpos]
    omega
  · rw [window_at hdata hpos hk]

theorem readU64_at {data pre bs rest : List Nat} {pos : Nat}
    (hdata : data = pre ++ (bs ++ rest)) (hpos : pos = pre.length)
    (hk : bs.length = 8) :
    readU64 data pos = .ok (beWord bs, pos + 8) := by
  refine readU64_eq_ok.mpr ⟨?_, ?_, rfl⟩
  · rw [length_at hdata, hpos]
    omega
  · rw [window_at hdata hpos hk]

theorem readI8_at {data pre rest : List Nat} {b pos : Nat}
    (hdata : data = pre ++ b :: rest) (hpos : pos = pre.length) :
    readI8 data pos = .ok (toSigned 8 b, pos + 1) := by
  unfold readI8
  rw [readU8_at hdata hpos]
  rfl

theorem readI16_at {data pre bs rest : List Nat} {pos : Nat}
    (hdata : data = pre ++ (bs ++ rest)) (hpos : pos = pre.length)
    (hk : bs.length = 2) :
    readI16 data pos = .ok (toSigned 16 (beWord bs), pos + 2) := by
  unfold readI16
  rw [readU16_at hdata hpos hk]
  rfl

theorem readI32_at {data pre bs rest : List Nat} {pos : Nat}
    (hdata : data = pre ++ (bs ++ rest)) (hpos : pos = pre.length)
    (hk : bs.length = 4) :
    readI32 data pos = .ok (toSigned 32 (beWord bs), pos + 4) := by
  unfold readI32
  rw [readU32_at hdata hpos hk]
  rfl

theorem readI64_at {data pre bs rest : List Nat} {pos : Nat}
    (hdata : data = pre ++ (bs ++ rest)) (hpos : pos = pre.length)
    (hk : bs.length = 8) :
    readI64 data pos = .ok (toSigned 64 (beWord bs), pos + 8) := by
  unfold readI64
  rw [readU64_at hdata hpos hk]
  rfl

theorem parseString_at {data pre name rest : List Nat} {pos : Nat}
    (hdata : data = pre ++ (beBytes 2 name.length ++ (name ++ rest)))
    (hpos : pos = pre.length) (hlen : name.length < 2 ^ 16) :
    parseString data pos = .ok (name, pos + 2 + name.length) := by
  have hw : beWord ((data.drop pos).take 2) = name.length := by
    rw [window_at hdata hpos (beBytes_length 2 _)]
    exact beWord_beBytes_of_lt (by norm_num at hlen ⊢; omega)
  have hlen2 : data.length = pos + 2 + name.length + rest.length := by
    rw [length_at hdata, hpos, beBytes_length]
    simp [List.length_append]
    omega
  refine parseString_eq_ok.mpr ⟨by omega, by rw [hw]; omega, ?_, by rw [hw]⟩
  rw [hw]
  refine (@window_at data (pre ++ beBytes 2 name.length) name rest (pos + 2)
    name.length ?_ ?_ rfl).symm
  · rw [hdata]
    simp [List.append_assoc]
  · simp [beBytes_length]
    omega

theorem encodeList_cons_length (t : NbtTag) (ts : List NbtTag) :
    (encodeList (t :: ts)).length =
      (encodePayload t).length + (encodeList ts).length := by
  rw [encodeList]
  simp [List.length_append]

theorem encodeEntries_cons_length (n : List Nat) (t : NbtTag)
    (rest : List (List Nat × NbtTag)) :
    (encodeEntries ((n, t) :: rest)).length =
      3 + n.length + (encodePayload t).length +
        (encodeEntries rest).length := by
  rw [encodeEntries]
  simp [List.length_append, beBytes_length]
  omega

theorem encodeList_mem_length {t : NbtTag} {es : List NbtTag} (h : t ∈ es) :
    (encodePayload t).length ≤ (encodeList es).length := by
  induction es with
  | nil => cases h
  | cons u us ih =>
      rw [encodeList_cons_length]
      rcases List.mem_cons.mp h with rfl | h2
      · omega
      · have := ih h2
        omega

theorem encodeEntries_mem_length {e : List Nat × NbtTag}
    {entries : List (List Nat × NbtTag)} (h : e ∈ entries) :
    (encodePayload e.2).length + 3 ≤ (encodeEntries entries).length := by
  induction entries with
  | nil => cases h
  | cons u us ih =>
      obtain ⟨n, t⟩ := u
      rw [encodeEntries_cons_length]
      rcases List.mem_cons.mp h with rfl | h2
      · change (encodePayload t).length + 3 ≤ _
        omega
      · have := ih h2
        omega

theorem encodeEntries_count_le (entries : List (List Nat × NbtTag)) :
    entries.length ≤ (encodeEntries entries).length := by
  induction entries with
  | nil => simp [encodeEntries]
  | cons u us ih =>
      obtain ⟨n, t⟩ := u
      rw [encodeEntries_cons_length]
      simp only [List.length_cons]
      omega

theorem sizeOf_mem_list {t : NbtTag} {es : List NbtTag} (h : t ∈ es)
    (et : Nat) : sizeOf t < sizeOf (NbtTag.list et es) := by
  have h1 := List.sizeOf_lt_of_mem h
  have h2 : sizeOf (NbtTag.list et es) = 1 + sizeOf et + sizeOf es := by
    simp [NbtTag.list.sizeOf_spec]
  omega

theorem sizeOf_mem_compound {e : List Nat × NbtTag}
    {entries : List (List Nat × NbtTag)} (h : e ∈ entries) :
    sizeOf e.2 < sizeOf (NbtTag.compound entries) := by
  have h1 := List.sizeOf_lt_of_mem h
  obtain ⟨n, t⟩ := e
  simp only [Prod.mk.sizeOf_spec] at h1
  have h3 : sizeOf (NbtTag.compound entries) = 1 + sizeOf entries := by
    simp [NbtTag.compound.sizeOf_spec]
  change sizeOf t < sizeOf (NbtTag.compound entries)
  omega

theorem runListLoop_encode {data : List Nat}
    {step : Nat → PResult (NbtTag × Nat)} :
    ∀ (es : List NbtTag) (pre post : List Nat) (pos : Nat),
      data = pre ++ (encodeList es ++ post) → pos = pre.length →
      (∀ t pre2 post2 pos2, t ∈ es →
        data = pre2 ++ (encodePayload t ++ post2) → pos2 = pre2.length →
        step pos2 = .ok (normalizeTag t, pos2 + (encodePayload t).length)) →
      runListLoop step es.length pos =
        .ok (normalizeList es, pos + (encodeList es).length) := by
  intro es
  induction es with
  | nil =>
      intro pre post pos hdata hpos hstep
      rw [show encodeList [] = [] from rfl]
      rfl
  | cons t ts ih =>
      intro pre post pos hdata hpos hstep
      have h1 := hstep t pre (encodeList ts ++ post) pos (List.mem_cons_self t ts)
        (by rw [hdata, encodeList]; simp [List.append_assoc]) hpos
      have h2 := ih (pre ++ encodePayload t) post (pos + (encodePayload t).length)
        (by rw [hdata, encodeList]; simp [List.append_assoc])
        (by simp [List.length_append, hpos])
        (fun u pre2 post2 pos2 hu hd hp =>
          hstep u pre2 post2 pos2 (List.mem_cons_of_mem t hu) hd hp)
      refine PResult.bind_ok_then h1 (PResult.bind_ok_then h2 ?_)
      rw [encodeList_cons_length, ← Nat.add_assoc]
      rfl

theorem runCompoundLoop_encode {data : List Nat}
    {step : Nat → Nat → PResult (NbtTag × Nat)} :
    ∀ (entries : List (List Nat × NbtTag)) (acc : List (List Nat × NbtTag))
      (g : Nat) (pre post : List Nat) (pos : Nat),
      data = pre ++ (encodeEntries entries ++ (0 :: post)) →
      pos = pre.length → entries.length + 1 ≤ g →
      (∀ e ∈ entries, (e : List Nat × NbtTag).1.length < 2 ^ 16) →
      (∀ e ∈ entries, tagId (e : List Nat × NbtTag).2 ≠ 0) →
      (∀ e pre2 post2 pos2, e ∈ entries →
        data = pre2 ++ (encodePayload (e : List Nat × NbtTag).2 ++ post2) →
        pos2 = pre2.length →
        step (tagId (e : List Nat × NbtTag).2) pos2 =
          .ok (normalizeTag (e : List Nat × NbtTag).2,
            pos2 + (encodePayload (e : List Nat × NbtTag).2).length)) →
      runCompoundLoop data step g pos acc =
        .ok (normalizeEntries acc entries,
          pos + (encodeEntries entries).length + 1) := by
  intro entries
  induction entries with
  | nil =>
      intro acc g pre post pos hdata hpos hg hn ht hstep
      obtain ⟨g1, rfl⟩ : ∃ h, g = h + 1 := ⟨g - 1, by omega⟩
      have hdata1 : data = pre ++ 0 :: post := by
        rw [hdata]
        simp [encodeEntries]
      exact PResult.bind_ok_then (readU8_at hdata1 hpos) rfl
  | cons e rest ih =>
      obtain ⟨n, t⟩ := e
      intro acc g pre post pos hdata hpos hg hn ht hstep
      obtain ⟨g1, rfl⟩ : ∃ h, g = h + 1 := ⟨g - 1, by omega⟩
      have h1 : readU8 data pos = .ok (tagId t, pos + 1) :=
        @readU8_at data pre
          (beBytes 2 n.length ++ (n ++ (encodePayload t ++
            (encodeEntries rest ++ 0 :: post)))) (tagId t) pos
          (by rw [hdata]; simp [encodeEntries, List.append_assoc,
            List.cons_append]) hpos
      have h2 : parseString data (pos + 1) = .ok (n, pos + 1 + 2 + n.length) :=
        @parseString_at data (pre ++ [tagId t]) n
          (encodePayload t ++ (encodeEntries rest ++ (0 :: post))) (pos + 1)
          (by rw [hdata]; simp [encodeEntries, List.append_assoc,
            List.cons_append])
          (by simp [List.length_append, hpos])
          (hn (n, t) (List.mem_cons_self _ _))
      have h3 := hstep (n, t)
        (pre ++ [tagId t] ++ beBytes 2 n.length ++ n)
        (encodeEntries rest ++ (0 :: post)) (pos + 1 + 2 + n.length)
        (List.mem_cons_self _ _)
        (by rw [hdata]; simp [encodeEntries, List.append_assoc,
          List.cons_append])
        (by simp [List.length_append, beBytes_length, hpos]; omega)
      have h4 := ih (insertEntry acc n (normalizeTag t)) g1
        (pre ++ [tagId t] ++ beBytes 2 n.length ++ n ++ encodePayload t) post
        (pos + 1 + 2 + n.length + (encodePayload t).length)
        (by rw [hdata]; simp [encodeEntries, List.append_assoc,
          List.cons_append])
        (by simp [List.length_append, beBytes_length, hpos]; omega)
        (by simp only [List.length_cons] at hg; omega)
        (fun e2 he2 => hn e2 (List.mem_cons_of_mem _ he2))
        (fun e2 he2 => ht e2 (List.mem_cons_of_mem _ he2))
        (fun e2 pre2 post2 pos2 he2 hd hp =>
          hstep e2 pre2 post2 pos2 (List.mem_cons_of_mem _ he2) hd hp)
      have hp : pos + 1 + 2 + n.length + (encodePayload t).length +
          (encodeEntries rest).length + 1 =
          pos + (encodeEntries ((n, t) :: rest)).length + 1 := by
        rw [encodeEntries_cons_length]
        omega
      rw [hp] at h4
      exact PResult.bind_ok_then h1
        ((if_neg (ht (n, t) (List.mem_cons_self _ _))).trans
          (PResult.bind_ok_then h2 (PResult.bind_ok_then h3 h4)))

theorem encodeI32s_length (xs : List Int) :
    (encodeI32s xs).length = 4 * xs.length := by
  induction xs with
  | nil => rfl
  | cons x xs ih =>
      rw [encodeI32s]
      simp [List.length_append, beBytes_length, ih]
      omega

theorem encodeI64s_length (xs : List Int) :
    (encodeI64s xs).length = 8 * xs.length := by
  induction xs with
  | nil => rfl
  | cons x xs ih =>
      rw [encodeI64s]
      simp [List.length_append, beBytes_length, ih]
      omega

theorem toSigned_ofNat_small {w n : Nat} (h : n < 2 ^ (w - 1)) :
    toSigned w n = (n : Int) := by
  unfold toSigned
  rw [if_pos h]


theorem i32AsUsize_ofNat {n : Nat} (h : n < 2 ^ 31) :
    i32AsUsize (n : Int) = n := by
  unfold i32AsUsize usizeMod
  omega

theorem encodeI32s_window {data : List Nat} :
    ∀ (xs : List Int) (pre rest : List Nat) (pos : Nat),
      data = pre ++ (encodeI32s xs ++ rest) → pos = pre.length →
      ∀ i, i < xs.length →
      (data.drop (pos + 4 * i)).take 4 =
        beBytes 4 (toUnsigned 32 (xs.getD i 0)) := by
  intro xs
  induction xs with
  | nil =>
      intro pre rest pos _ _ i hi
      exact absurd hi (by simp)
  | cons x xs ih =>
      intro pre rest pos hdata hpos i
      cases i with
      | zero =>
          intro _
          have hw := @window_at data pre (beBytes 4 (toUnsigned 32 x))
            (encodeI32s xs ++ rest) pre.length 4
            (by rw [hdata]; simp [encodeI32s, List.append_assoc]) rfl
            (beBytes_length 4 _)
          have hp0 : pos + 4 * 0 = pre.length := by omega
          rw [hp0, hw]
          rfl
      | succ j =>
          intro hj
          have hp : pos + 4 * (j + 1) = (pos + 4) + 4 * j := by ring
          rw [hp]
          exact ih (pre ++ beBytes 4 (toUnsigned 32 x)) rest (pos + 4)
            (by rw [hdata]; simp [encodeI32s, List.append_assoc])
            (by simp [List.length_append, beBytes_length]; omega) j
            (by simpa using hj)

theorem readI32s_window {data : List Nat} (xs : List Int)
    (pre rest : List Nat) (pos : Nat)
    (hdata : data = pre ++ (encodeI32s xs ++ rest)) (hpos : pos = pre.length)
    (hwf : ∀ x ∈ xs, -2 ^ 31 ≤ x ∧ x < 2 ^ 31) :
    (List.range xs.length).map
      (fun i => toSigned 32 (hostWord .big ((data.drop (pos + 4 * i)).take 4)))
      = xs := by
  refine List.ext_getElem (by simp) ?_
  intro i h1 h2
  simp only [List.getElem_map, List.getElem_range]
  rw [encodeI32s_window xs pre rest pos hdata hpos i (by simpa using h1)]
  have hx : xs.getD i 0 = xs[i] := List.getD_eq_getElem xs 0 h2
  rw [hx]
  show toSigned 32 (beWord (beBytes 4 (toUnsigned 32 xs[i]))) = xs[i]
  rw [beWord_beBytes_of_lt
    (by have hu := toUnsigned_lt 32 xs[i]; norm_num at hu ⊢; omega)]
  have hm := hwf xs[i] (List.getElem_mem h2)
  exact toSigned_toUnsigned (by norm_num) hm.1 hm.2

theorem encodeI64s_window {data : List Nat} :
    ∀ (xs : List Int) (pre rest : List Nat) (pos : Nat),
      data = pre ++ (encodeI64s xs ++ rest) → pos = pre.length →
      ∀ i, i < xs.length →
      (data.drop (pos + 8 * i)).take 8 =
        beBytes 8 (toUnsigned 64 (xs.getD i 0)) := by
  intro xs
  induction xs with
  | nil =>
      intro pre rest pos _ _ i hi
      exact absurd hi (by simp)
  | cons x xs ih =>
      intro pre rest pos hdata hpos i
      cases i with
      | zero =>
          intro _
          have hw := @window_at data pre (beBytes 8 (toUnsigned 64 x))
            (encodeI64s xs ++ rest) pre.length 8
            (by rw [hdata]; simp [encodeI64s, List.append_assoc]) rfl
            (beBytes_length 8 _)
          have hp0 : pos + 8 * 0 = pre.length := by omega
          rw [hp0, hw]
          rfl
      | succ j =>
          intro hj
          have hp : pos + 8 * (j + 1) = (pos + 8) + 8 * j := by ring
          rw [hp]
          exact ih (pre ++ beBytes 8 (toUnsigned 64 x)) rest (pos + 8)
            (by rw [hdata]; simp [encodeI64s, List.append_assoc])
            (by simp [List.length_append, beBytes_length]; omega) j
            (by simpa using hj)

theorem readI64s_window {data : List Nat} (xs : List Int)
    (pre rest : List Nat) (pos : Nat)
    (hdata : data = pre ++ (encodeI64s xs ++ rest)) (hpos : pos = pre.length)
    (hwf : ∀ x ∈ xs, -2 ^ 63 ≤ x ∧ x < 2 ^ 63) :
    (List.range xs.length).map
      (fun i => toSigned 64 (hostWord .big ((data.drop (pos + 8 * i)).take 8)))
      = xs := by
  refine List.ext_getElem (by simp) ?_
  intro i h1 h2
  simp only [List.getElem_map, List.getElem_range]
  rw [encodeI64s_window xs pre rest pos hdata hpos i (by simpa using h1)]
  have hx : xs.getD i 0 = xs[i] := List.getD_eq_getElem xs 0 h2
  rw [hx]
  show toSigned 64 (beWord (beBytes 8 (toUnsigned 64 xs[i]))) = xs[i]
  rw [beWord_beBytes_of_lt
    (by have hu := toUnsigned_lt 64 xs[i]; norm_num at hu ⊢; omega)]
  have hm := hwf xs[i] (List.getElem_mem h2)
  exact toSigned_toUnsigned (by norm_num) hm.1 hm.2

/-- Roundtrip: on a big-endian host, parsing at an offset where a
well-formed tag's payload was laid down yields exactly that tag (with
compound entry lists collapsed through the `HashMap`) and consumes exactly
the payload bytes.  Proved by strong induction on a size bound `N`. -/
theorem parsePayload_encode {data : List Nat} (hL : data.length ≤ isizeMax) :
    ∀ (N : Nat) (t : NbtTag), sizeOf t ≤ N → WFTag t →
    ∀ (pre post : List Nat) (pos fuel : Nat),
      data = pre ++ (encodePayload t ++ post) → pos = pre.length →
      (encodePayload t).length + 1 ≤ fuel →
      parsePayload .big data fuel (tagId t) pos =
        .ok (normalizeTag t, pos + (encodePayload t).length) := by
  intro N
  induction N with
  | zero =>
      intro t hsz
      exact absurd hsz (by cases t <;> simp)
  | succ M ih =>
      intro t hsz hwf pre post pos fuel hdata hpos hfuel
      obtain ⟨f, rfl⟩ : ∃ g, fuel = g + 1 := ⟨fuel - 1, by omega⟩
      rw [parsePayload]
      cases hwf with
      | endTag => rfl
      | @byte v hv1 hv2 =>
          have hb : beBytes 1 (toUnsigned 8 v) = [toUnsigned 8 v] := by
            show [toUnsigned 8 v % 256] = [toUnsigned 8 v]
            rw [Nat.mod_eq_of_lt
              (by have hu := toUnsigned_lt 8 v; norm_num at hu ⊢; omega)]
          have h1 : readI8 data pos = .ok (toSigned 8 (toUnsigned 8 v), pos + 1) :=
            @readI8_at data pre post (toUnsigned 8 v) pos (by
              rw [hdata, show encodePayload (NbtTag.byte v) = [toUnsigned 8 v] from hb]
              simp) hpos
          rw [@toSigned_toUnsigned 8 (by norm_num) v hv1 hv2] at h1
          exact PResult.bind_ok_then h1 rfl
      | @short v hv1 hv2 =>
          have h1 : readI16 data pos =
              .ok (toSigned 16 (beWord (beBytes 2 (toUnsigned 16 v))), pos + 2) :=
            @readI16_at data pre (beBytes 2 (toUnsigned 16 v)) post pos hdata hpos
              (beBytes_length 2 _)
          have hw1 : beWord (beBytes 2 (toUnsigned 16 v)) = toUnsigned 16 v :=
            beWord_beBytes_of_lt
              (by have hu := toUnsigned_lt 16 v; norm_num at hu ⊢; omega)
          rw [hw1, @toSigned_toUnsigned 16 (by norm_num) v hv1 hv2] at h1
          exact PResult.bind_ok_then h1 rfl
      | @int v hv1 hv2 =>
          have h1 : readI32 data pos =
              .ok (toSigned 32 (beWord (beBytes 4 (toUnsigned 32 v))), pos + 4) :=
            @readI32_at data pre (beBytes 4 (toUnsigned 32 v)) post pos hdata hpos
              (beBytes_length 4 _)
          have hw1 : beWord (beBytes 4 (toUnsigned 32 v)) = toUnsigned 32 v :=
            beWord_beBytes_of_lt
              (by have hu := toUnsigned_lt 32 v; norm_num at hu ⊢; omega)
          rw [hw1, @toSigned_toUnsigned 32 (by norm_num) v hv1 hv2] at h1
          exact PResult.bind_ok_then h1 rfl
      | @long v hv1 hv2 =>
          have h1 : readI64 data pos =
              .ok (toSigned 64 (beWord (beBytes 8 (toUnsigned 64 v))), pos + 8) :=
            @readI64_at data pre (beBytes 8 (toUnsigned 64 v)) post pos hdata hpos
              (beBytes_length 8 _)
          have hw1 : beWord (beBytes 8 (toUnsigned 64 v)) = toUnsigned 64 v :=
            beWord_beBytes_of_lt
              (by have hu := toUnsigned_lt 64 v; norm_num at hu ⊢; omega)
          rw [hw1, @toSigned_toUnsigned 64 (by norm_num) v hv1 hv2] at h1
          exact PResult.bind_ok_then h1 rfl
      | @float bits hb =>
          have h1 : readU32 data pos = .ok (beWord (beBytes 4 bits), pos + 4) :=
            @readU32_at data pre (beBytes 4 bits) post pos hdata hpos
              (beBytes_length 4 _)
          rw [beWord_beBytes_of_lt (k := 4) (by norm_num at hb ⊢; omega)] at h1
          exact PResult.bind_ok_then h1 rfl
      | @double bits hb =>
          have h1 : readU64 data pos = .ok (beWord (beBytes 8 bits), pos + 8) :=
            @readU64_at data pre (beBytes 8 bits) post pos hdata hpos
              (beBytes_length 8 _)
          rw [beWord_beBytes_of_lt (k := 8) (by norm_num at hb ⊢; omega)] at h1
          exact PResult.bind_ok_then h1 rfl
      | @byteArray bs hlen =>
          have h1 : readI32 data pos =
              .ok (toSigned 32 (beWord (beBytes 4 bs.length)), pos + 4) :=
            @readI32_at data pre (beBytes 4 bs.length) (bs ++ post) pos
              (by rw [hdata]; simp [encodePayload, List.append_assoc]) hpos
              (beBytes_length 4 _)
          have hw1 : beWord (beBytes 4 bs.length) = bs.length :=
            beWord_beBytes_of_lt (by norm_num at hlen ⊢; omega)
          have hw2 : toSigned 32 bs.length = (bs.length : Int) :=
            @toSigned_ofNat_small 32 bs.length (by norm_num at hlen ⊢; omega)
          rw [hw1, hw2] at h1
          have hview : takeByteView data (pos + 4) (i32AsUsize (bs.length : Int)) =
              .ok (bs, pos + 4 + bs.length) := by
            rw [i32AsUsize_ofNat hlen]
            refine (takeByteView_eq_ok hL (by unfold usizeMod; omega)).mpr
              ⟨?_, ?_, rfl⟩
            · have h6 := @length_at data pre (encodePayload (NbtTag.byteArray bs))
                post hdata
              have h7 : (encodePayload (NbtTag.byteArray bs)).length =
                  4 + bs.length := by
                simp [encodePayload, List.length_append, beBytes_length]
              omega
            · exact (@window_at data (pre ++ beBytes 4 bs.length) bs post (pos + 4)
                bs.length
                (by rw [hdata]; simp [encodePayload, List.append_assoc])
                (by simp [List.length_append, beBytes_length]; omega) rfl).symm
          have hq : pos + 4 + bs.length =
              pos + (encodePayload (NbtTag.byteArray bs)).length := by
            simp only [encodePayload, List.length_append, beBytes_length]
            omega
          rw [hq] at hview
          exact PResult.bind_ok_then h1 (PResult.bind_ok_then hview rfl)
      | @string s hlen =>
          have h1 : parseString data pos = .ok (s, pos + 2 + s.length) :=
            @parseString_at data pre s post pos
              (by rw [hdata]; simp [encodePayload, List.append_assoc]) hpos hlen
          have hq : pos + 2 + s.length =
              pos + (encodePayload (NbtTag.string s)).length := by
            simp only [encodePayload, List.length_append, beBytes_length]
            omega
          rw [hq] at h1
          exact PResult.bind_ok_then h1 rfl
      | @list et es hcount hels hwfs =>
          have h1 : readU8 data pos = .ok (et, pos + 1) :=
            @readU8_at data pre (beBytes 4 es.length ++ (encodeList es ++ post))
              et pos
              (by rw [hdata]
                  simp [encodePayload, List.append_assoc, List.cons_append]) hpos
          have h2 : readI32 data (pos + 1) =
              .ok (toSigned 32 (beWord (beBytes 4 es.length)), pos + 1 + 4) :=
            @readI32_at data (pre ++ [et]) (beBytes 4 es.length)
              (encodeList es ++ post) (pos + 1)
              (by rw [hdata]
                  simp [encodePayload, List.append_assoc, List.cons_append])
              (by simp [List.length_append]; omega) (beBytes_length 4 _)
          have hw1 : beWord (beBytes 4 es.length) = es.length :=
            beWord_beBytes_of_lt (by norm_num at hcount ⊢; omega)
          have hw2 : toSigned 32 es.length = (es.length : Int) :=
            @toSigned_ofNat_small 32 es.length (by norm_num at hcount ⊢; omega)
          rw [hw1, hw2] at h2
          have h7 : (encodePayload (NbtTag.list et es)).length =
              5 + (encodeList es).length := by
            simp only [encodePayload, List.length_cons, List.length_append,
              beBytes_length]
            omega
          have hloop : runListLoop (fun q => parsePayload .big data f et q)
              es.length (pos + 1 + 4) =
              .ok (normalizeList es, pos + 1 + 4 + (encodeList es).length) := by
            refine @runListLoop_encode data (fun q => parsePayload .big data f et q)
              es (pre ++ [et] ++ beBytes 4 es.length) post (pos + 1 + 4)
              (by rw [hdata]
                  simp [encodePayload, List.append_assoc, List.cons_append])
              (by simp [List.length_append, beBytes_length]; omega) ?_
            intro u pre2 post2 pos2 hu hd2 hp2
            have h5 := sizeOf_mem_list hu et
            have h6 := encodeList_mem_length hu
            have hrec := ih u (by omega) (hwfs u hu) pre2 post2 pos2 f hd2 hp2
              (by omega)
            rw [hels u hu] at hrec
            exact hrec
          have hlen2 : i32AsUsize (es.length : Int) = es.length :=
            i32AsUsize_ofNat hcount
          have hq : pos + 1 + 4 + (encodeList es).length =
              pos + (encodePayload (NbtTag.list et es)).length := by
            omega
          rw [hq] at hloop
          refine PResult.bind_ok_then h1 (PResult.bind_ok_then h2 ?_)
          simp only [hlen2]
          rw [if_neg (by unfold isizeMax; omega)]
          exact PResult.bind_ok_then hloop rfl
      | @compound entries hn ht hwfs =>
          have h7 : (encodePayload (NbtTag.compound entries)).length =
              (encodeEntries entries).length + 1 := by
            simp [encodePayload, List.length_append]
          have hloop : runCompoundLoop data
              (fun t q => parsePayload .big data f t q) f pos [] =
              .ok (normalizeEntries [] entries,
                pos + (encodeEntries entries).length + 1) := by
            refine runCompoundLoop_encode entries [] f pre post pos
              (by rw [hdata]
                  simp [encodePayload, List.append_assoc, List.singleton_append])
              hpos ?_ hn ht ?_
            · have h6 := encodeEntries_count_le entries
              omega
            · intro e pre2 post2 pos2 he hd2 hp2
              have h5 := sizeOf_mem_compound he
              have h6 := encodeEntries_mem_length he
              exact ih e.2 (by omega) (hwfs e he) pre2 post2 pos2 f hd2 hp2
                (by omega)
          have hq : pos + (encodeEntries entries).length + 1 =
              pos + (encodePayload (NbtTag.compound entries)).length := by
            omega
          rw [hq] at hloop
          exact PResult.bind_ok_then hloop rfl
      | @intArray xs hlen hrange =>
          have h1 : readI32 data pos =
              .ok (toSigned 32 (beWord (beBytes 4 xs.length)), pos + 4) :=
            @readI32_at data pre (beBytes 4 xs.length) (encodeI32s xs ++ post) pos
              (by rw [hdata]; simp [encodePayload, List.append_assoc]) hpos
              (beBytes_length 4 _)
          have hw1 : beWord (beBytes 4 xs.length) = xs.length :=
            beWord_beBytes_of_lt (by norm_num at hlen ⊢; omega)
          have hw2 : toSigned 32 xs.length = (xs.length : Int) :=
            @toSigned_ofNat_small 32 xs.length (by norm_num at hlen ⊢; omega)
          rw [hw1, hw2] at h1
          have hlen2 : i32AsUsize (xs.length : Int) = xs.length :=
            i32AsUsize_ofNat hlen
          have h7 : (encodePayload (NbtTag.intArray xs)).length =
              4 + 4 * xs.length := by
            simp only [encodePayload, List.length_append, beBytes_length,
              encodeI32s_length]
          have hbound : pos + 4 + 4 * xs.length ≤ data.length := by
            have h6 := @length_at data pre (encodePayload (NbtTag.intArray xs))
              post hdata
            omega
          have harr : readI32Array .big data (pos + 4) xs.length =
              .ok (xs, pos + 4 + 4 * xs.length) :=
            (readI32Array_eq_ok hL (Or.inl hlen)).mpr ⟨hlen, hbound,
              (readI32s_window xs (pre ++ beBytes 4 xs.length) post (pos + 4)
                (by rw [hdata]; simp [encodePayload, List.append_assoc])
                (by simp [List.length_append, beBytes_length]; omega)
                hrange).symm, rfl⟩
          have hq : pos + 4 + 4 * xs.length =
              pos + (encodePayload (NbtTag.intArray xs)).length := by
            omega
          rw [hq] at harr
          refine PResult.bind_ok_then h1 ?_
          simp only [hlen2]
          exact PResult.bind_ok_then harr rfl
      | @longArray xs hlen hrange =>
          have h1 : readI32 data pos =
              .ok (toSigned 32 (beWord (beBytes 4 xs.length)), pos + 4) :=
            @readI32_at data pre (beBytes 4 xs.length) (encodeI64s xs ++ post) pos
              (by rw [hdata]; simp [encodePayload, List.append_assoc]) hpos
              (beBytes_length 4 _)
          have hw1 : beWord (beBytes 4 xs.length) = xs.length :=
            beWord_beBytes_of_lt (by norm_num at hlen ⊢; omega)
          have hw2 : toSigned 32 xs.length = (xs.length : Int) :=
            @toSigned_ofNat_small 32 xs.length (by norm_num at hlen ⊢; omega)
          rw [hw1, hw2] at h1
          have hlen2 : i32AsUsize (xs.length : Int) = xs.length :=
            i32AsUsize_ofNat hlen
          have h7 : (encodePayload (NbtTag.longArray xs)).length =
              4 + 8 * xs.length := by
            simp only [encodePayload, List.length_append, beBytes_length,
              encodeI64s_length]
          have hbound : pos + 4 + 8 * xs.length ≤ data.length := by
            have h6 := @length_at data pre (encodePayload (NbtTag.longArray xs))
              post hdata
            omega
          have harr : readI64Array .big data (pos + 4) xs.length =
              .ok (xs, pos + 4 + 8 * xs.length) :=
            (readI64Array_eq_ok hL (Or.inl hlen)).mpr ⟨hlen, hbound,
              (readI64s_window xs (pre ++ beBytes 4 xs.length) post (pos + 4)
                (by rw [hdata]; simp [encodePayload, List.append_assoc])
                (by simp [List.length_append, beBytes_length]; omega)
                hrange).symm, rfl⟩
          have hq : pos + 4 + 8 * xs.length =
              pos + (encodePayload (NbtTag.longArray xs)).length := by
            omega
          rw [hq] at harr
          refine PResult.bind_ok_then h1 ?_
          simp only [hlen2]
          exact PResult.bind_ok_then harr rfl

/-! ## Last-write-wins: the HashMap collapse versus stream order -/

theorem lookupEntry_insertEntry (acc : List (List Nat × NbtTag))
    (n nm : List Nat) (t : NbtTag) :
    lookupEntry (insertEntry acc n t) nm =
      if n = nm then some t else lookupEntry acc nm := by
  induction acc with
  | nil =>
      by_cases h : n = nm <;> simp [insertEntry, lookupEntry, h]
  | cons e rest ih =>
      obtain ⟨m, v⟩ := e
      by_cases hmn : m = n
      · subst hmn
        by_cases h : m = nm <;> simp [insertEntry, lookupEntry, h]
      · by_cases h2 : m = nm
        · subst h2
          have hnm : ¬ n = m := fun hh => hmn hh.symm
          simp [insertEntry, lookupEntry, hmn, hnm]
        · simp [insertEntry, lookupEntry, hmn, h2, ih]

theorem lookupEntry_normalizeEntries :
    ∀ (entries : List (List Nat × NbtTag)) (acc : List (List Nat × NbtTag))
      (nm : List Nat),
      lookupEntry (normalizeEntries acc entries) nm =
        match lastWritten entries nm with
        | some t => some (normalizeTag t)
        | none => lookupEntry acc nm := by
  intro entries
  induction entries with
  | nil =>
      intro acc nm
      rfl
  | cons e rest ih =>
      obtain ⟨n, t⟩ := e
      intro acc nm
      rw [normalizeEntries, ih, lastWritten]
      cases hlast : lastWritten rest nm with
      | some u => rfl
      | none =>
          rw [lookupEntry_insertEntry]
          by_cases h : n = nm <;> simp [h]

/-- Root-level roundtrip: a byte stream laying down root tag 10, a
length-prefixed name and the encoding of well-formed compound entries is
decoded by `parse` into that name and the normalized compound. -/
theorem parse_encode {data name : List Nat}
    {entries : List (List Nat × NbtTag)}
    (hwf : WFTag (NbtTag.compound entries)) (hname : name.length < 2 ^ 16)
    (hdata : data = 10 :: (beBytes 2 name.length ++
      (name ++ encodePayload (NbtTag.compound entries))))
    (hL : data.length ≤ isizeMax) :
    parse .big data = .ok (name, normalizeTag (NbtTag.compound entries)) := by
  have hcomp : isCompressed data = false := by rw [hdata]; rfl
  have h1 : readU8 data 0 = .ok (10, 1) :=
    @readU8_at data [] (beBytes 2 name.length ++
      (name ++ encodePayload (NbtTag.compound entries))) 10 0 hdata rfl
  have h2 : parseString data 1 = .ok (name, 1 + 2 + name.length) :=
    @parseString_at data [10] name
      (encodePayload (NbtTag.compound entries)) 1 hdata rfl hname
  have hel : data.length =
      3 + name.length + (encodePayload (NbtTag.compound entries)).length := by
    rw [hdata]
    simp only [List.length_cons, List.length_append, beBytes_length]
    omega
  have h3 : parsePayload .big data (enoughFuel data)
      (tagId (NbtTag.compound entries)) (1 + 2 + name.length) =
      .ok (normalizeTag (NbtTag.compound entries), 1 + 2 + name.length +
        (encodePayload (NbtTag.compound entries)).length) := by
    refine parsePayload_encode hL (sizeOf (NbtTag.compound entries))
      (NbtTag.compound entries) (le_refl _) hwf
      ([10] ++ beBytes 2 name.length ++ name) [] (1 + 2 + name.length)
      (enoughFuel data) ?_ ?_ ?_
    · rw [hdata]
      simp [List.append_assoc]
    · simp only [List.length_append, List.length_cons, List.length_nil,
        beBytes_length]
    · unfold enoughFuel
      omega
  have hroot : parseRoot .big data =
      .ok ((name, normalizeTag (NbtTag.compound entries)),
        1 + 2 + name.length +
          (encodePayload (NbtTag.compound entries)).length) := by
    unfold parseRoot
    rw [if_neg (by simp [hcomp])]
    exact PResult.bind_ok_then h1
      ((if_neg (by omega)).trans
        (PResult.bind_ok_then h2 (PResult.bind_ok_then h3 rfl)))
  unfold parse
  rw [hroot]
  rfl

/-- C7: for every well-formed Compound byte stream (root tag 10, a
grammar-legal name, the encoding of well-formed entries - duplicate entry
names allowed), `parse` succeeds (big-endian host model) and the decoded
compound maps every name to exactly the last value written for it in the
stream: a later occurrence of the same name overwrites the earlier one. -/
theorem c7_wellformed_compound_last_write_wins
    {name : List Nat} {entries : List (List Nat × NbtTag)}
    (hwf : WFTag (NbtTag.compound entries)) (hname : name.length < 2 ^ 16)
    (hL : (10 :: (beBytes 2 name.length ++
      (name ++ encodePayload (NbtTag.compound entries)))).length ≤ isizeMax) :
    ∃ res, parse .big (10 :: (beBytes 2 name.length ++
        (name ++ encodePayload (NbtTag.compound entries)))) =
        .ok (name, .compound res) ∧
      ∀ nm, lookupEntry res nm = (lastWritten entries nm).map normalizeTag := by
  refine ⟨normalizeEntries [] entries, ?_, ?_⟩
  · exact parse_encode hwf hname rfl hL
  · intro nm
    rw [lookupEntry_normalizeEntries entries [] nm]
    cases lastWritten entries nm <;> rfl

theorem c7_witness :
    ∃ res, parse .big (10 :: (beBytes 2 (List.length ([] : List Nat)) ++
        (([] : List Nat) ++ encodePayload (NbtTag.compound
          [([120], NbtTag.int 1), ([120], NbtTag.int 2)])))) =
        .ok ([], .compound res) ∧
      ∀ nm, lookupEntry res nm =
        (lastWritten [([120], NbtTag.int 1), ([120], NbtTag.int 2)] nm).map
          normalizeTag :=
  c7_wellformed_compound_last_write_wins
    (by
      refine WFTag.compound ?_ ?_ ?_
      · intro e he
        fin_cases he <;> decide
      · intro e he
        fin_cases he <;> decide
      · intro e he
        fin_cases he <;> exact WFTag.int (by norm_num) (by norm_num))
    (by decide) (by decide)

/-! ## C8: unbounded nesting -/

/-- A List chained `d` levels deep: each level a one-element List of lists,
the innermost an empty List of element type End. -/
def nestedList : Nat → NbtTag
  | 0 => .list 0 []
  | d + 1 => .list 9 [nestedList d]

/-- An NBT document whose root compound holds a single entry (empty name)
nesting `d + 1` List levels. -/
def nestedInput (d : Nat) : List Nat :=
  10 :: (beBytes 2 0 ++
    ([] ++ encodePayload (NbtTag.compound [([], nestedList d)])))

theorem tagId_nestedList (d : Nat) : tagId (nestedList d) = 9 := by
  cases d <;> rfl

theorem wf_nestedList (d : Nat) : WFTag (nestedList d) := by
  induction d with
  | zero =>
      refine WFTag.list (by norm_num) ?_ ?_ <;>
        exact fun u hu => absurd hu (List.not_mem_nil u)
  | succ d ih =>
      refine WFTag.list (by norm_num) ?_ ?_
      · intro u hu
        rw [List.mem_singleton.mp hu]
        exact tagId_nestedList d
      · intro u hu
        rw [List.mem_singleton.mp hu]
        exact ih

theorem nestedList_encLength (d : Nat) :
    (encodePayload (nestedList d)).length = 5 * d + 5 := by
  induction d with
  | zero => rfl
  | succ d ih =>
      show (encodePayload (NbtTag.list 9 [nestedList d])).length =
        5 * (d + 1) + 5
      simp only [encodePayload, encodeList, List.length_cons,
        List.length_append, beBytes_length, List.length_nil, ih]
      omega

/-- C8: the source tracks no nesting depth and its error enum has no
depth-exceeded variant; parsing a document whose List nesting is `d + 1`
levels deep SUCCEEDS for every depth `d` (any `d` up to `2 ^ 60` here, far
beyond any configured maximum "in the low hundreds"), returning the full
tree instead of the `DepthExceeded` error the specification requires.  The
recursion is bounded only by the input length (claim C10). -/
theorem c8_no_depth_limit_unbounded_nesting (d : Nat) (hd : d ≤ 2 ^ 60) :
    parse .big (nestedInput d) =
      .ok ([], normalizeTag (NbtTag.compound [([], nestedList d)])) := by
  have hwf : WFTag (NbtTag.compound [([], nestedList d)]) := by
    refine WFTag.compound ?_ ?_ ?_
    · intro e he
      rw [List.mem_singleton.mp he]
      norm_num
    · intro e he
      rw [List.mem_singleton.mp he]
      show tagId (nestedList d) ≠ 0
      rw [tagId_nestedList d]
      norm_num
    · intro e he
      rw [List.mem_singleton.mp he]
      exact wf_nestedList d
  have hent : (encodePayload (NbtTag.compound [([], nestedList d)])).length =
      5 * d + 9 := by
    simp only [encodePayload, encodeEntries, List.length_append,
      List.length_cons, List.length_nil, beBytes_length, nestedList_encLength]
    omega
  have hlen : (nestedInput d).length = 5 * d + 12 := by
    show (10 :: (beBytes 2 0 ++
      ([] ++ encodePayload (NbtTag.compound [([], nestedList d)])))).length =
      5 * d + 12
    simp only [List.length_cons, List.length_append, List.length_nil,
      beBytes_length, hent]
    omega
  exact parse_encode hwf (by norm_num) rfl
    (by rw [hlen]; unfold isizeMax; omega)

theorem c8_witness :
    500 ≤ 2 ^ 60 ∧
      parse .big (nestedInput 500) =
        .ok ([], normalizeTag (NbtTag.compound [([], nestedList 500)])) :=
  ⟨by norm_num, c8_no_depth_limit_unbounded_nesting 500 (by norm_num)⟩
